import Mathlib

/-!
Shallow embedding of the `enc` file-encryption tool (Go sources: `boxbuf.go`,
the file orchestrator, and `main.go`).  Bytes are modelled as `Nat` values
(`< 256` where it matters), byte strings as `List Nat`, and the fallible Go
code as `Except Err` computations.  The external cryptographic primitives
(XChaCha20-Poly1305, BLAKE2b-512, Argon2id from `golang.org/x/crypto`) are not
part of this repository; they are embedded as executable idealized models that
preserve exactly the interface properties the surrounding code relies on:
deterministic output of the documented lengths, AEAD seal/open round-trip, and
(for the keyed MAC) collision-freedom, modelled by injectively packing the
MAC input into the first of the 64 output slots.
-/

namespace Enc

/-- maxChunkSize from boxbuf.go: the plaintext chunk size of the format. -/
def maxChunkSize : Nat := 16384

/-- Error outcomes of the embedded Go code.  `eof` is Go's `io.EOF`,
`unexpectedEOF` is `io.ErrUnexpectedEOF` (short `io.ReadFull`),
`chunkTooLarge` is the `errors.New("chunk too large")` of `nextChunk`,
`aeadFailure` is a failed `aead.Open`, `badMAC` is `errBadMAC`,
`nonceReuse` and `rngFailure` model the two `panic` calls of `writeChunk`,
`indexOutOfRange` models a Go runtime slice-index panic, and `outOfFuel`
is a modelling artifact for the `io.Copy` loops (never reached with the
fuel the file operations supply). -/
inductive Err where
  | eof
  | unexpectedEOF
  | chunkTooLarge
  | aeadFailure
  | badMAC
  | nonceReuse
  | rngFailure
  | indexOutOfRange
  | outOfFuel
  deriving DecidableEq, Repr

/-- Little-endian serialization of a `uint64` (binary.Write LittleEndian). -/
def u64le (n : Nat) : List Nat :=
  (List.range 8).map (fun i => n / 256 ^ i % 256)

/-- Little-endian deserialization of a `uint64` (binary.Read LittleEndian). -/
def u64dec (l : List Nat) : Nat :=
  l.foldr (fun b acc => acc * 256 + b) 0

/-- Little-endian serialization of a `uint32`. -/
def u32le (n : Nat) : List Nat :=
  (List.range 4).map (fun i => n / 256 ^ i % 256)

/-- Little-endian deserialization of a `uint32`. -/
def u32dec (l : List Nat) : Nat :=
  l.foldr (fun b acc => acc * 256 + b) 0

theorem u64le_length (n : Nat) : (u64le n).length = 8 := by
  simp [u64le]

theorem u32le_length (n : Nat) : (u32le n).length = 4 := by
  simp [u32le]

theorem u64le_bytes_lt (n : Nat) : ∀ b ∈ u64le n, b < 256 := by
  intro b hb
  simp only [u64le, List.mem_map] at hb
  obtain ⟨i, _, rfl⟩ := hb
  exact Nat.mod_lt _ (by norm_num)

theorem u64dec_u64le (n : Nat) (h : n < 2 ^ 64) : u64dec (u64le n) = n := by
  simp only [u64le, List.range_succ, List.range_zero, List.map_append, List.map_cons,
    List.map_nil, List.nil_append, u64dec, List.foldr_append, List.foldr_cons,
    List.foldr_nil]
  omega

theorem u32dec_u32le (n : Nat) (h : n < 2 ^ 32) : u32dec (u32le n) = n := by
  simp only [u32le, List.range_succ, List.range_zero, List.map_append, List.map_cons,
    List.map_nil, List.nil_append, u32dec, List.foldr_append, List.foldr_cons,
    List.foldr_nil]
  omega

/-- Injective packing of a byte string into one natural number; used by the
idealized models of the external hash functions. -/
def encBytes (l : List Nat) : Nat :=
  l.foldr (fun b acc => acc * 256 + b) 1

theorem encBytes_pos (l : List Nat) : 0 < encBytes l := by
  induction l with
  | nil => simp [encBytes]
  | cons b t ih =>
    simp only [encBytes, List.foldr_cons] at ih ⊢
    omega

theorem encBytes_injOn : ∀ l₁ l₂ : List Nat, (∀ b ∈ l₁, b < 256) →
    (∀ b ∈ l₂, b < 256) → encBytes l₁ = encBytes l₂ → l₁ = l₂ := by
  intro l₁
  induction l₁ with
  | nil =>
    intro l₂ _ h₂ heq
    cases l₂ with
    | nil => rfl
    | cons b t =>
      exfalso
      have hb : b < 256 := h₂ b (by simp)
      have ht : 0 < encBytes t := encBytes_pos t
      simp only [encBytes, List.foldr_nil, List.foldr_cons] at heq ht
      omega
  | cons a s ih =>
    intro l₂ h₁ h₂ heq
    cases l₂ with
    | nil =>
      exfalso
      have ha : a < 256 := h₁ a (by simp)
      have hs : 0 < encBytes s := encBytes_pos s
      simp only [encBytes, List.foldr_cons, List.foldr_nil] at heq hs
      omega
    | cons b t =>
      have ha : a < 256 := h₁ a (by simp)
      have hb : b < 256 := h₂ b (by simp)
      simp only [encBytes, List.foldr_cons] at heq
      have hab : a = b := by omega
      have htail : encBytes s = encBytes t := by
        simp only [encBytes]
        omega
      have hst := ih t (fun x hx => h₁ x (List.mem_cons_of_mem _ hx))
        (fun x hx => h₂ x (List.mem_cons_of_mem _ hx)) htail
      rw [hab, hst]

/-- Idealized model of the keyed BLAKE2b-512 MAC (`blake2b.New512(macKey)`
fed with the ciphertext region, `hash.Sum(nil)`): 64 output slots whose first
slot packs key and data injectively, modelling collision resistance. -/
def blake2b512 (key data : List Nat) : List Nat :=
  Nat.pair (encBytes key) (encBytes data) :: List.replicate 63 0

theorem blake2b512_length (key data : List Nat) : (blake2b512 key data).length = 64 := by
  simp [blake2b512]

theorem blake2b512_ne_of_data_ne (key d₁ d₂ : List Nat)
    (h₁ : ∀ b ∈ d₁, b < 256) (h₂ : ∀ b ∈ d₂, b < 256) (hne : d₁ ≠ d₂) :
    blake2b512 key d₁ ≠ blake2b512 key d₂ := by
  intro h
  apply hne
  have hpair : Nat.pair (encBytes key) (encBytes d₁) =
      Nat.pair (encBytes key) (encBytes d₂) := by
    simpa [blake2b512] using congrArg (fun l => l.headI) h
  have := (Nat.pair_eq_pair.mp hpair).2
  exact encBytes_injOn d₁ d₂ h₁ h₂ this

/-- Idealized model of `argon2.IDKey(passphrase, salt, time, memory, lanes,
keyLen+macLen)`: a deterministic byte string of the requested length derived
from all the inputs. -/
def argon2IDKey (pass salt : List Nat) (time mem lanes outLen : Nat) : List Nat :=
  (List.range outLen).map
    (fun i => (Nat.pair (encBytes pass) (encBytes salt) + time * 3 + mem * 5 + lanes * 7 + i) % 256)

theorem argon2IDKey_length (pass salt : List Nat) (time mem lanes outLen : Nat) :
    (argon2IDKey pass salt time mem lanes outLen).length = outLen := by
  simp [argon2IDKey]

/-- Idealized 16-slot tag of the XChaCha20-Poly1305 model. -/
def aeadTag (key nonce pt : List Nat) : List Nat :=
  (List.range 16).map
    (fun i => (Nat.pair (encBytes key) (Nat.pair (encBytes nonce) (encBytes pt)) + i) % 256)

/-- Idealized model of `aead.Seal(nil, nonce, plaintext, nil)` for the
XChaCha20-Poly1305 AEAD: an invertible byte transformation of the plaintext
followed by the 16-slot tag, so that the output length is the plaintext
length plus the 16-byte overhead, exactly as for the real AEAD. -/
def aeadSeal (key nonce pt : List Nat) : List Nat :=
  pt.map (fun b => (b + 1) % 256) ++ aeadTag key nonce pt

/-- Idealized model of `aead.Open(nil, nonce, ciphertext, nil)`: rejects
inputs shorter than the 16-byte overhead, recomputes and checks the tag,
and inverts the byte transformation of `aeadSeal`. -/
def aeadOpen (key nonce ct : List Nat) : Option (List Nat) :=
  if ct.length < 16 then none
  else if ct.drop (ct.length - 16) =
      aeadTag key nonce ((ct.take (ct.length - 16)).map (fun b => (b + 255) % 256)) then
    some ((ct.take (ct.length - 16)).map (fun b => (b + 255) % 256))
  else none

theorem aeadTag_length (key nonce pt : List Nat) : (aeadTag key nonce pt).length = 16 := by
  simp [aeadTag]

theorem aeadSeal_length (key nonce pt : List Nat) :
    (aeadSeal key nonce pt).length = pt.length + 16 := by
  simp [aeadSeal, aeadTag_length]

theorem aeadSeal_bytes_lt (key nonce pt : List Nat) : ∀ b ∈ aeadSeal key nonce pt, b < 256 := by
  intro b hb
  simp only [aeadSeal, aeadTag, List.mem_append, List.mem_map] at hb
  rcases hb with ⟨x, _, rfl⟩ | ⟨i, _, rfl⟩ <;> exact Nat.mod_lt _ (by norm_num)

theorem map_unshift_shift (pt : List Nat) (h : ∀ b ∈ pt, b < 256) :
    (pt.map (fun b => (b + 1) % 256)).map (fun b => (b + 255) % 256) = pt := by
  rw [List.map_map]
  apply List.ext_getElem (by simp)
  intro i h1 h2
  simp only [List.getElem_map, Function.comp_apply]
  have hb : pt[i] < 256 := h _ (List.getElem_mem h2)
  omega

theorem aeadOpen_aeadSeal (key nonce pt : List Nat) (h : ∀ b ∈ pt, b < 256) :
    aeadOpen key nonce (aeadSeal key nonce pt) = some pt := by
  have hmaplen : (pt.map (fun b => (b + 1) % 256)).length = pt.length := by simp
  have htake : (aeadSeal key nonce pt).take pt.length = pt.map (fun b => (b + 1) % 256) := by
    rw [aeadSeal, ← hmaplen, List.take_left]
  have hdrop : (aeadSeal key nonce pt).drop pt.length = aeadTag key nonce pt := by
    rw [aeadSeal, ← hmaplen, List.drop_left]
  rw [aeadOpen, aeadSeal_length]
  simp only [Nat.add_sub_cancel, htake, hdrop, map_unshift_shift pt h]
  simp

/-- EncWriter from boxbuf.go.  `out` accumulates the bytes written to the
underlying `io.Writer` (for `encryptFile` this is the `io.MultiWriter` tee:
the ciphertext region of the temp file and, byte for byte, the BLAKE2b
hasher), `buf` is the pending plaintext, and `usedNonces` is the
per-instance used-nonce set. -/
structure EncWriter where
  buf : List Nat
  usedNonces : List (List Nat)
  out : List Nat
  secretKey : List Nat
  deriving DecidableEq

/-- NewWriter from boxbuf.go. -/
def mkWriter (sk : List Nat) : EncWriter :=
  { buf := [], usedNonces := [], out := [], secretKey := sk }

/-- writeChunk from boxbuf.go.  The fresh random nonce drawn from
`crypto/rand` is modelled by consuming the head of `supply`; an empty supply
models an entropy-read failure, which the Go code turns into a panic, as does
a draw that is already in the used-nonce set.  On success the chunk is framed
as nonce, u64-LE ciphertext length, AEAD ciphertext, and the buffer is
reset. -/
def EncWriter.writeChunk (w : EncWriter) (supply : List (List Nat)) :
    Except Err (EncWriter × List (List Nat)) :=
  match supply with
  | [] => .error .rngFailure
  | nonce :: rest =>
    if nonce ∈ w.usedNonces then .error .nonceReuse
    else
      let encryptedData := aeadSeal w.secretKey nonce w.buf
      .ok ({ w with
              buf := [],
              usedNonces := nonce :: w.usedNonces,
              out := w.out ++ nonce ++ u64le encryptedData.length ++ encryptedData },
           rest)

/-- Write loop body from boxbuf.go: for each incoming byte, flush a chunk
first when the buffer holds exactly `maxChunkSize` bytes, then append the
byte. -/
def EncWriter.writeLoop : EncWriter → List Nat → List (List Nat) →
    Except Err (EncWriter × List (List Nat))
  | w, [], supply => .ok (w, supply)
  | w, b :: rest, supply =>
    if w.buf.length = maxChunkSize then
      match w.writeChunk supply with
      | .error e => .error e
      | .ok (w1, s1) => EncWriter.writeLoop { w1 with buf := w1.buf ++ [b] } rest s1
    else EncWriter.writeLoop { w with buf := w.buf ++ [b] } rest supply

/-- Write from boxbuf.go: the byte loop followed by the unconditional final
`writeChunk` that flushes whatever remains in the buffer. -/
def EncWriter.write (w : EncWriter) (p : List Nat) (supply : List (List Nat)) :
    Except Err (EncWriter × List (List Nat)) :=
  match w.writeLoop p supply with
  | .error e => .error e
  | .ok (w1, s1) => w1.writeChunk s1

/-- Plaintext chunk decomposition performed by a single `EncWriter.Write`
call starting from an empty buffer, with explicit fuel so the kernel can
evaluate it (the fuel is irrelevant as long as it is at least the input
length; see `chunksOfF_congr`). -/
def chunksOfF : Nat → List Nat → List (List Nat)
  | 0, p => [p]
  | f + 1, p =>
    if p.length ≤ maxChunkSize then [p]
    else p.take maxChunkSize :: chunksOfF f (p.drop maxChunkSize)

/-- Plaintext chunk decomposition of one `Write` call: maximal 16384-byte
chunks followed by the final partial chunk (a single possibly-empty chunk
when the input fits in the buffer). -/
def chunksOf (p : List Nat) : List (List Nat) :=
  chunksOfF p.length p

/-- Serialized chunk frame exactly as `writeChunk` emits it. -/
def frame (sk nonce chunk : List Nat) : List Nat :=
  nonce ++ u64le (aeadSeal sk nonce chunk).length ++ aeadSeal sk nonce chunk

/-- Concatenation of the frames for a nonce list and a chunk list. -/
def framesOf (sk : List Nat) (nonces chunks : List (List Nat)) : List Nat :=
  (List.zipWith (frame sk) nonces chunks).flatten

/-- io.Copy from the encrypt path of `encryptFile`: repeatedly read up to
32768 bytes (the io.Copy buffer size) from the input and hand them to
`EncWriter.Write`; a read at end of input returns 0 bytes with io.EOF and
ends the copy without a `Write` call.  Fuel-based for kernel evaluation;
`encryptFileModel` supplies enough fuel for any input. -/
def copyToWriterF : Nat → EncWriter → List Nat → List (List Nat) →
    Except Err (EncWriter × List (List Nat))
  | 0, _, _, _ => .error .outOfFuel
  | f + 1, w, input, supply =>
    match input with
    | [] => .ok (w, supply)
    | _ :: _ =>
      match w.write (input.take 32768) supply with
      | .error e => .error e
      | .ok (w1, s1) => copyToWriterF f w1 (input.drop 32768) s1

/-- DecReader from boxbuf.go: remaining input stream, current decrypted
chunk, and the cursor into it. -/
structure DecReader where
  input : List Nat
  buf : List Nat
  index : Nat
  secretKey : List Nat
  deriving DecidableEq

/-- NewReader from boxbuf.go. -/
def mkReader (sk stream : List Nat) : DecReader :=
  { input := stream, buf := [], index := 0, secretKey := sk }

/-- nextChunk from boxbuf.go: read a 24-byte nonce, a u64-LE length, reject
lengths above `maxChunkSize + 16`, read that many ciphertext bytes and open
them.  `io.ReadFull` semantics: zero available bytes give io.EOF, a short
read gives io.ErrUnexpectedEOF after consuming what was available, and a
zero-length request succeeds on an empty stream. -/
def DecReader.nextChunk (b : DecReader) : DecReader × Option Err :=
  if b.input.length = 0 then (b, some .eof)
  else if b.input.length < 24 then ({ b with input := [] }, some .unexpectedEOF)
  else if (b.input.drop 24).length = 0 then ({ b with input := [] }, some .eof)
  else if (b.input.drop 24).length < 8 then ({ b with input := [] }, some .unexpectedEOF)
  else if maxChunkSize + 16 < u64dec ((b.input.drop 24).take 8) then
    ({ b with input := (b.input.drop 24).drop 8 }, some .chunkTooLarge)
  else if ((b.input.drop 24).drop 8).length = 0 ∧ 0 < u64dec ((b.input.drop 24).take 8) then
    ({ b with input := [] }, some .eof)
  else if ((b.input.drop 24).drop 8).length < u64dec ((b.input.drop 24).take 8) then
    ({ b with input := [] }, some .unexpectedEOF)
  else
    match aeadOpen b.secretKey (b.input.take 24)
        (((b.input.drop 24).drop 8).take (u64dec ((b.input.drop 24).take 8))) with
    | none =>
      ({ b with
          input := ((b.input.drop 24).drop 8).drop (u64dec ((b.input.drop 24).take 8)) },
       some .aeadFailure)
    | some pt =>
      ({ b with
          input := ((b.input.drop 24).drop 8).drop (u64dec ((b.input.drop 24).take 8)),
          buf := pt },
       none)

/-- Read from boxbuf.go, with the request buffer length as the `Nat`
argument and the delivered bytes as the returned list: for each requested
byte, fetch the next chunk when the cursor is 0, copy `buf[index]` into the
caller's buffer (a Go index-out-of-range panic, modelled as
`Err.indexOutOfRange`, when the cursor is not inside the buffer — this
happens for a zero-length decrypted chunk), advance, and wrap the cursor to
0 at the end of the buffer. -/
def DecReader.read : DecReader → Nat → DecReader × List Nat × Option Err
  | b, 0 => (b, [], none)
  | b, n + 1 =>
    match (if b.index = 0 then b.nextChunk else (b, none)) with
    | (b1, some e) => (b1, [], some e)
    | (b1, none) =>
      if h : b1.index < b1.buf.length then
        let byte := b1.buf.get ⟨b1.index, h⟩
        let idx := b1.index + 1
        let b2 := { b1 with index := if b1.buf.length ≤ idx then 0 else idx }
        match DecReader.read b2 n with
        | (b3, bytes, e) => (b3, byte :: bytes, e)
      else (b1, [], some .indexOutOfRange)

/-- io.Copy from the decrypt path of `decryptFile`: repeatedly read up to
32768 bytes from the DecReader and append them to the output; io.EOF ends
the copy successfully, any other error aborts it.  Fuel-based;
`decryptFileModel` supplies enough fuel for any input. -/
def copyFromReader : Nat → DecReader → List Nat → Except Err (List Nat)
  | 0, _, _ => .error .outOfFuel
  | f + 1, b, acc =>
    match b.read 32768 with
    | (_, bytes, some .eof) => .ok (acc ++ bytes)
    | (_, _, some e) => .error e
    | (b1, bytes, none) => copyFromReader f b1 (acc ++ bytes)

/-- defaultArgonTime from the KDF constants. -/
def defaultArgonTime : Nat := 4

/-- defaultArgonMemory from the KDF constants (4e6 KiB). -/
def defaultArgonMemory : Nat := 4000000

/-- fileHeader from the file orchestrator. -/
structure fileHeader where
  salt : List Nat
  argonTime : Nat
  argonMemory : Nat
  argonLanes : Nat
  tag : List Nat
  deriving DecidableEq

/-- Serialization of `fileHeader` as performed by
`binary.Write(output, binary.LittleEndian, header)`: the fields in
declaration order with no padding — 32 salt bytes, u32-LE time, u32-LE
memory, one lanes byte, 64 tag slots. -/
def headerBytes (h : fileHeader) : List Nat :=
  h.salt ++ u32le h.argonTime ++ u32le h.argonMemory ++ [h.argonLanes % 256] ++ h.tag

/-- Deserialization of `fileHeader` as performed by
`binary.Read(input, binary.LittleEndian, &header)`, returning the remaining
bytes (the ciphertext region) alongside; fails when fewer bytes are
available than the fixed header size. -/
def parseHeader (file : List Nat) : Option (fileHeader × List Nat) :=
  if file.length < 105 then none
  else
    some ({ salt := file.take 32,
            argonTime := u32dec ((file.drop 32).take 4),
            argonMemory := u32dec ((file.drop 36).take 4),
            argonLanes := (file.drop 40).headI,
            tag := (file.drop 41).take 64 },
          file.drop 105)

/-- Header built by generateKey from the file orchestrator: fresh salt (a
parameter here, standing for the `rand.Read` draw), the default Argon2id
parameters, and `uint8(runtime.NumCPU() * 2)` — a mod-256 truncation — for
the lanes; the tag is left as zeros at this stage. -/
def generateKeyHeader (numCPU : Nat) (salt : List Nat) : fileHeader :=
  { salt := salt, argonTime := defaultArgonTime, argonMemory := defaultArgonMemory,
    argonLanes := numCPU * 2 % 256, tag := List.replicate 64 0 }

/-- generateKey from the file orchestrator: the 64-byte Argon2id output
(split by the callers into the 32-byte secret key and the 32-byte MAC key)
together with the header recording the parameters used. -/
def generateKey (passphrase : List Nat) (numCPU : Nat) (salt : List Nat) :
    List Nat × fileHeader :=
  let header := generateKeyHeader numCPU salt
  (argon2IDKey passphrase header.salt header.argonTime header.argonMemory header.argonLanes 64,
   header)

/-- encryptFile from the file orchestrator: derive the keys, stream the
input through the EncWriter via io.Copy with the ciphertext region teed
into the keyed BLAKE2b hasher, then write the completed header (now holding
the 64-byte tag) at offset 0 followed by the ciphertext region.  The final
file contents are returned; the temp-file and rename mechanics carry no
byte-level content and are not modelled. -/
def encryptFileModel (passphrase input : List Nat) (numCPU : Nat) (salt : List Nat)
    (supply : List (List Nat)) : Except Err (List Nat) :=
  match copyToWriterF (input.length + 1)
      (mkWriter ((generateKey passphrase numCPU salt).1.take 32)) input supply with
  | .error e => .error e
  | .ok (w, _) =>
    .ok (headerBytes { (generateKey passphrase numCPU salt).2 with
          tag := blake2b512 (((generateKey passphrase numCPU salt).1.drop 32).take 32)
            w.out } ++
      w.out)

/-- decryptFile from the file orchestrator: read the header, derive the keys
from the passphrase and the header parameters, authenticate the entire
ciphertext region against the header tag (constant-time compare), and only
then decrypt it through a DecReader via io.Copy.  The decrypted output-file
contents are returned; an error means the temp file is removed and no
output file is produced. -/
def decryptFileModel (passphrase file : List Nat) : Except Err (List Nat) :=
  match parseHeader file with
  | none => .error .unexpectedEOF
  | some (h, ct) =>
    if blake2b512
        (((argon2IDKey passphrase h.salt h.argonTime h.argonMemory h.argonLanes 64).drop
          32).take 32) ct = h.tag then
      copyFromReader (ct.length + 1)
        (mkReader
          ((argon2IDKey passphrase h.salt h.argonTime h.argonMemory h.argonLanes 64).take 32)
          ct) []
    else .error .badMAC

/-- Chunk decomposition performed by the whole encrypt pipeline: `io.Copy`
never calls `Write` for an empty input, so an empty input yields no chunks at
all, while a non-empty input yields the same decomposition as one big
`Write`. -/
def pChunks (p : List Nat) : List (List Nat) :=
  if p = [] then [] else chunksOf p

theorem chunksOfF_congr : ∀ f g (p : List Nat), p.length ≤ f → p.length ≤ g →
    chunksOfF f p = chunksOfF g p := by
  intro f
  induction f with
  | zero =>
    intro g p hf _
    have hp : p = [] := List.length_eq_zero.mp (Nat.le_zero.mp hf)
    subst hp
    cases g <;> simp [chunksOfF, maxChunkSize]
  | succ f ih =>
    intro g p hf hg
    cases g with
    | zero =>
      have hp : p = [] := List.length_eq_zero.mp (Nat.le_zero.mp hg)
      subst hp
      simp [chunksOfF, maxChunkSize]
    | succ g =>
      simp only [chunksOfF]
      by_cases hsmall : p.length ≤ maxChunkSize
      · simp [hsmall]
      · have hlarge : maxChunkSize < p.length := Nat.lt_of_not_le hsmall
        simp only [if_neg hsmall]
        have hdrop : (p.drop maxChunkSize).length = p.length - maxChunkSize := by
          simp [List.length_drop]
        have h16 : 1 ≤ maxChunkSize := by simp [maxChunkSize]
        rw [ih g (p.drop maxChunkSize) (by omega) (by omega)]

theorem chunksOf_small (p : List Nat) (h : p.length ≤ maxChunkSize) : chunksOf p = [p] := by
  rw [chunksOf]
  cases hl : p.length with
  | zero => simp [chunksOfF]
  | succ n => simp [chunksOfF, h]

theorem chunksOf_large (p : List Nat) (h : maxChunkSize < p.length) :
    chunksOf p = p.take maxChunkSize :: chunksOf (p.drop maxChunkSize) := by
  rw [chunksOf]
  cases hl : p.length with
  | zero => simp [hl] at h
  | succ n =>
    simp only [chunksOfF]
    rw [if_neg (Nat.not_le.mpr h)]
    congr 1
    rw [chunksOf]
    apply chunksOfF_congr
    · rw [List.length_drop]
      have h16 : 1 ≤ maxChunkSize := by simp [maxChunkSize]
      omega
    · exact le_rfl

theorem chunksOf_flatten : ∀ n (p : List Nat), p.length ≤ n → (chunksOf p).flatten = p := by
  intro n
  induction n with
  | zero =>
    intro p hp
    have : p = [] := List.length_eq_zero.mp (Nat.le_zero.mp hp)
    subst this
    simp [chunksOf_small, maxChunkSize]
  | succ n ih =>
    intro p hp
    by_cases hsmall : p.length ≤ maxChunkSize
    · simp [chunksOf_small p hsmall]
    · have hlarge := Nat.lt_of_not_le hsmall
      rw [chunksOf_large p hlarge]
      have h16 : 1 ≤ maxChunkSize := by simp [maxChunkSize]
      have : (p.drop maxChunkSize).length ≤ n := by
        simp only [List.length_drop]
        omega
      simp [ih _ this]

theorem chunksOf_chunk_le : ∀ n (p : List Nat), p.length ≤ n →
    ∀ c ∈ chunksOf p, c.length ≤ maxChunkSize := by
  intro n
  induction n with
  | zero =>
    intro p hp c hc
    have : p = [] := List.length_eq_zero.mp (Nat.le_zero.mp hp)
    subst this
    rw [chunksOf_small _ (by simp [maxChunkSize])] at hc
    simp at hc
    simp [hc, maxChunkSize]
  | succ n ih =>
    intro p hp c hc
    by_cases hsmall : p.length ≤ maxChunkSize
    · rw [chunksOf_small p hsmall] at hc
      simp at hc
      simpa [hc] using hsmall
    · have hlarge := Nat.lt_of_not_le hsmall
      rw [chunksOf_large p hlarge] at hc
      have h16 : 1 ≤ maxChunkSize := by simp [maxChunkSize]
      rcases List.mem_cons.mp hc with rfl | hmem
      · simp [List.length_take]
      · exact ih (p.drop maxChunkSize) (by simp [List.length_drop]; omega) c hmem

theorem chunksOf_chunk_ne_nil : ∀ n (p : List Nat), p.length ≤ n → p ≠ [] →
    ∀ c ∈ chunksOf p, c ≠ [] := by
  intro n
  induction n with
  | zero =>
    intro p hp hne
    exact absurd (List.length_eq_zero.mp (Nat.le_zero.mp hp)) hne
  | succ n ih =>
    intro p hp hne c hc
    by_cases hsmall : p.length ≤ maxChunkSize
    · rw [chunksOf_small p hsmall] at hc
      simp at hc
      simpa [hc] using hne
    · have hlarge := Nat.lt_of_not_le hsmall
      rw [chunksOf_large p hlarge] at hc
      have h16 : 1 ≤ maxChunkSize := by simp [maxChunkSize]
      rcases List.mem_cons.mp hc with rfl | hmem
      · intro habs
        have hlen := congrArg List.length habs
        rw [List.length_take] at hlen
        simp only [List.length_nil] at hlen
        omega
      · refine ih (p.drop maxChunkSize) (by rw [List.length_drop]; omega) ?_ c hmem
        intro habs
        have hlen := congrArg List.length habs
        rw [List.length_drop] at hlen
        simp only [List.length_nil] at hlen
        omega

theorem chunksOf_chunk_mem : ∀ n (p : List Nat), p.length ≤ n →
    ∀ c ∈ chunksOf p, ∀ b ∈ c, b ∈ p := by
  intro n
  induction n with
  | zero =>
    intro p hp c hc b hb
    have : p = [] := List.length_eq_zero.mp (Nat.le_zero.mp hp)
    subst this
    rw [chunksOf_small _ (by simp [maxChunkSize])] at hc
    simp at hc
    subst hc
    simp at hb
  | succ n ih =>
    intro p hp c hc b hb
    by_cases hsmall : p.length ≤ maxChunkSize
    · rw [chunksOf_small p hsmall] at hc
      simp at hc
      subst hc
      exact hb
    · have hlarge := Nat.lt_of_not_le hsmall
      rw [chunksOf_large p hlarge] at hc
      have h16 : 1 ≤ maxChunkSize := by simp [maxChunkSize]
      rcases List.mem_cons.mp hc with rfl | hmem
      · exact List.mem_of_mem_take hb
      · exact List.mem_of_mem_drop (ih (p.drop maxChunkSize)
          (by simp [List.length_drop]; omega) c hmem b hb)

theorem chunksOf_append_32768 (p : List Nat) (h : 32768 < p.length) :
    chunksOf p = chunksOf (p.take 32768) ++ chunksOf (p.drop 32768) := by
  have hmax : maxChunkSize = 16384 := rfl
  have h1 : maxChunkSize < p.length := by omega
  have h2 : maxChunkSize < (p.drop maxChunkSize).length := by
    simp only [List.length_drop]
    omega
  rw [chunksOf_large p h1, chunksOf_large _ h2]
  have htk : maxChunkSize < (p.take 32768).length := by
    simp only [List.length_take]
    omega
  rw [chunksOf_large _ htk]
  have e1 : (p.take 32768).take maxChunkSize = p.take maxChunkSize := by
    rw [List.take_take]
    congr 1
  have e2 : (p.take 32768).drop maxChunkSize = (p.drop maxChunkSize).take maxChunkSize := by
    rw [List.drop_take]
    norm_num [hmax]
  have e3 : (p.drop maxChunkSize).drop maxChunkSize = p.drop 32768 := by
    rw [List.drop_drop]
    norm_num [hmax]
  have e4 : chunksOf ((p.drop maxChunkSize).take maxChunkSize) =
      [(p.drop maxChunkSize).take maxChunkSize] :=
    chunksOf_small _ (by simp [List.length_take])
  rw [e1, e2, e3, e4]
  simp

theorem framesOf_nil (sk : List Nat) (cs : List (List Nat)) : framesOf sk [] cs = [] := by
  simp [framesOf]

theorem framesOf_cons (sk nonce c : List Nat) (ns cs : List (List Nat)) :
    framesOf sk (nonce :: ns) (c :: cs) = frame sk nonce c ++ framesOf sk ns cs := by
  simp [framesOf]

theorem EncWriter.writeChunk_eq_ok (w : EncWriter) (nonce : List Nat)
    (rest : List (List Nat)) (h : nonce ∉ w.usedNonces) :
    w.writeChunk (nonce :: rest) =
      .ok ({ w with
              buf := [],
              usedNonces := nonce :: w.usedNonces,
              out := w.out ++ frame w.secretKey nonce w.buf }, rest) := by
  simp [EncWriter.writeChunk, h, frame, List.append_assoc]

theorem EncWriter.writeChunk_ok_inv {w : EncWriter} {supply : List (List Nat)}
    {w1 : EncWriter} {s1 : List (List Nat)} (h : w.writeChunk supply = .ok (w1, s1)) :
    ∃ nonce, supply = nonce :: s1 ∧ nonce ∉ w.usedNonces ∧
      w1 = { w with
              buf := [],
              usedNonces := nonce :: w.usedNonces,
              out := w.out ++ frame w.secretKey nonce w.buf } := by
  match supply with
  | [] => simp [EncWriter.writeChunk] at h
  | nonce :: rest =>
    by_cases hmem : nonce ∈ w.usedNonces
    · simp [EncWriter.writeChunk, hmem] at h
    · rw [EncWriter.writeChunk_eq_ok w nonce rest hmem] at h
      simp only [Except.ok.injEq, Prod.mk.injEq] at h
      exact ⟨nonce, by rw [h.2], hmem, h.1.symm⟩

theorem EncWriter.writeLoop_fits : ∀ (p : List Nat) (w : EncWriter) s,
    w.buf.length + p.length ≤ maxChunkSize →
    EncWriter.writeLoop w p s = .ok ({ w with buf := w.buf ++ p }, s) := by
  intro p
  induction p with
  | nil =>
    intro w s _
    simp [EncWriter.writeLoop]
  | cons b rest ih =>
    intro w s h
    have hne : ¬ (w.buf.length = maxChunkSize) := by
      simp only [List.length_cons] at h
      have h16 : 1 ≤ maxChunkSize := by simp [maxChunkSize]
      omega
    simp only [EncWriter.writeLoop, if_neg hne]
    rw [ih _ s (by simp only [List.length_append, List.length_cons, List.length_nil] at h ⊢; omega)]
    simp [List.append_assoc]

theorem EncWriter.writeLoop_nil (w : EncWriter) (supply : List (List Nat)) :
    EncWriter.writeLoop w [] supply = .ok (w, supply) := rfl

theorem EncWriter.writeLoop_cons (w : EncWriter) (b : Nat) (rest : List Nat)
    (supply : List (List Nat)) :
    EncWriter.writeLoop w (b :: rest) supply =
      if w.buf.length = maxChunkSize then
        match w.writeChunk supply with
        | .error e => .error e
        | .ok (w1, s1) => EncWriter.writeLoop { w1 with buf := w1.buf ++ [b] } rest s1
      else EncWriter.writeLoop { w with buf := w.buf ++ [b] } rest supply := rfl

theorem EncWriter.writeLoop_split : ∀ (p : List Nat) (w : EncWriter) s,
    w.buf.length ≤ maxChunkSize →
    maxChunkSize < w.buf.length + p.length →
    EncWriter.writeLoop w p s =
      match EncWriter.writeChunk
          { w with buf := w.buf ++ p.take (maxChunkSize - w.buf.length) } s with
      | .error e => .error e
      | .ok (w1, s1) =>
        EncWriter.writeLoop w1 (p.drop (maxChunkSize - w.buf.length)) s1 := by
  intro p
  induction p with
  | nil =>
    intro w s h1 h2
    exfalso
    simp only [List.length_nil] at h2
    omega
  | cons b rest ih =>
    intro w s h1 h2
    by_cases hfull : w.buf.length = maxChunkSize
    · have hfill : maxChunkSize - w.buf.length = 0 := by omega
      rw [hfill]
      simp only [List.take_zero, List.append_nil, List.drop_zero]
      rw [EncWriter.writeLoop_cons, if_pos hfull]
      cases hwc : EncWriter.writeChunk w s with
      | error e => rfl
      | ok pair =>
        obtain ⟨w1, s1⟩ := pair
        obtain ⟨nonce, _, _, hw1⟩ := EncWriter.writeChunk_ok_inv hwc
        have hb1 : ¬ (w1.buf.length = maxChunkSize) := by
          rw [hw1]
          simp [maxChunkSize]
        show EncWriter.writeLoop { w1 with buf := w1.buf ++ [b] } rest s1 =
          EncWriter.writeLoop w1 (b :: rest) s1
        rw [EncWriter.writeLoop_cons, if_neg hb1]
    · have hlt : w.buf.length < maxChunkSize := Nat.lt_of_le_of_ne h1 hfull
      have harith : maxChunkSize - w.buf.length = (maxChunkSize - (w.buf.length + 1)) + 1 := by
        omega
      rw [harith, List.take_succ_cons, List.drop_succ_cons]
      rw [EncWriter.writeLoop_cons, if_neg hfull]
      rw [ih { w with buf := w.buf ++ [b] } s
        (by simp only [List.length_append, List.length_cons, List.length_nil]; omega)
        (by simp only [List.length_append, List.length_cons, List.length_nil] at h2 ⊢; omega)]
      simp only [List.length_append, List.length_cons, List.length_nil, List.append_assoc,
        List.singleton_append]

theorem EncWriter.write_small (p : List Nat) (w : EncWriter) (nonce : List Nat)
    (rest : List (List Nat)) (hp : p.length ≤ maxChunkSize) (hbuf : w.buf = [])
    (hfresh : nonce ∉ w.usedNonces) :
    EncWriter.write w p (nonce :: rest) =
      .ok ({ w with
              buf := [],
              usedNonces := nonce :: w.usedNonces,
              out := w.out ++ frame w.secretKey nonce p }, rest) := by
  rw [EncWriter.write, EncWriter.writeLoop_fits p w (nonce :: rest) (by rw [hbuf]; simpa)]
  show EncWriter.writeChunk { w with buf := w.buf ++ p } (nonce :: rest) = _
  rw [hbuf]
  simp only [List.nil_append]
  rw [EncWriter.writeChunk_eq_ok
    { buf := p, usedNonces := w.usedNonces, out := w.out, secretKey := w.secretKey }
    nonce rest hfresh]

theorem EncWriter.write_unfold_large (p : List Nat) (w : EncWriter) (s : List (List Nat))
    (hbuf : w.buf = []) (hlarge : maxChunkSize < p.length) :
    EncWriter.write w p s =
      match EncWriter.writeChunk { w with buf := p.take maxChunkSize } s with
      | .error e => .error e
      | .ok (w1, s1) => EncWriter.write w1 (p.drop maxChunkSize) s1 := by
  rw [EncWriter.write, EncWriter.writeLoop_split p w s (by rw [hbuf]; simp [maxChunkSize])
    (by rw [hbuf]; simpa using hlarge)]
  rw [hbuf]
  simp only [List.length_nil, Nat.sub_zero, List.nil_append]
  cases hwc : EncWriter.writeChunk { w with buf := List.take maxChunkSize p } s with
  | error e => rfl
  | ok pair =>
    obtain ⟨w1, s1⟩ := pair
    rfl

theorem EncWriter.write_eq_ok : ∀ n (p : List Nat) (w : EncWriter) supply,
    p.length ≤ n → w.buf = [] →
    (chunksOf p).length ≤ supply.length →
    (supply.take (chunksOf p).length).Nodup →
    (∀ x ∈ supply.take (chunksOf p).length, x ∉ w.usedNonces) →
    EncWriter.write w p supply =
      .ok ({ w with
              buf := [],
              usedNonces := (supply.take (chunksOf p).length).reverse ++ w.usedNonces,
              out := w.out ++
                framesOf w.secretKey (supply.take (chunksOf p).length) (chunksOf p) },
           supply.drop (chunksOf p).length) := by
  have hsmallcase : ∀ (p : List Nat) (w : EncWriter) supply,
      p.length ≤ maxChunkSize → w.buf = [] →
      (chunksOf p).length ≤ supply.length →
      (∀ x ∈ supply.take (chunksOf p).length, x ∉ w.usedNonces) →
      EncWriter.write w p supply =
        .ok ({ w with
                buf := [],
                usedNonces := (supply.take (chunksOf p).length).reverse ++ w.usedNonces,
                out := w.out ++
                  framesOf w.secretKey (supply.take (chunksOf p).length) (chunksOf p) },
             supply.drop (chunksOf p).length) := by
    intro p w supply hp hbuf hlen hfresh
    rw [chunksOf_small p hp] at hlen hfresh ⊢
    simp only [List.length_cons, List.length_nil, Nat.zero_add] at hlen hfresh ⊢
    obtain ⟨nonce, rest, rfl⟩ : ∃ nonce rest, supply = nonce :: rest := by
      cases supply with
      | nil => simp at hlen
      | cons a b => exact ⟨a, b, rfl⟩
    have hfr : nonce ∉ w.usedNonces := hfresh nonce (by simp)
    rw [EncWriter.write_small p w nonce rest hp hbuf hfr]
    simp [framesOf_cons, framesOf_nil]
  intro n
  induction n with
  | zero =>
    intro p w supply hn hbuf hlen hnodup hfresh
    have hp : p.length ≤ maxChunkSize := by
      have := Nat.le_zero.mp hn
      simp [this, maxChunkSize]
    exact hsmallcase p w supply hp hbuf hlen hfresh
  | succ n ih =>
    intro p w supply hn hbuf hlen hnodup hfresh
    by_cases hsmall : p.length ≤ maxChunkSize
    · exact hsmallcase p w supply hsmall hbuf hlen hfresh
    · have hlarge := Nat.lt_of_not_le hsmall
      have h16 : 1 ≤ maxChunkSize := by simp [maxChunkSize]
      rw [chunksOf_large p hlarge] at hlen hnodup hfresh ⊢
      simp only [List.length_cons] at hlen hnodup hfresh ⊢
      obtain ⟨nonce, rest, rfl⟩ : ∃ nonce rest, supply = nonce :: rest := by
        cases supply with
        | nil => simp at hlen
        | cons a b => exact ⟨a, b, rfl⟩
      rw [List.take_succ_cons] at hnodup hfresh ⊢
      rw [List.drop_succ_cons]
      have hfr : nonce ∉ w.usedNonces := hfresh nonce (by simp)
      rw [EncWriter.write_unfold_large p w _ hbuf hlarge,
        EncWriter.writeChunk_eq_ok _ nonce rest (by simpa [hbuf] using hfr)]
      show EncWriter.write
        { w with
            buf := [],
            usedNonces := nonce :: w.usedNonces,
            out := w.out ++ frame w.secretKey nonce (p.take maxChunkSize) }
        (p.drop maxChunkSize) rest = _
      rw [ih (p.drop maxChunkSize) _ rest
        (by rw [List.length_drop]; omega)
        rfl
        (by simpa using Nat.le_of_succ_le_succ hlen)
        (List.Nodup.of_cons hnodup)
        ?_]
      · simp [framesOf_cons, List.reverse_cons, List.append_assoc]
      · intro x hx
        simp only [List.mem_cons, not_or]
        constructor
        · intro hxn
          subst hxn
          exact (List.nodup_cons.mp hnodup).1 hx
        · exact hfresh x (List.mem_cons_of_mem _ hx)

theorem EncWriter.write_ok_inv : ∀ n (p : List Nat) (w : EncWriter) supply w2 s2,
    p.length ≤ n → w.buf = [] →
    EncWriter.write w p supply = .ok (w2, s2) →
    ∃ nonces : List (List Nat), supply = nonces ++ s2 ∧
      nonces.length = (chunksOf p).length ∧ nonces.Nodup ∧
      (∀ x ∈ nonces, x ∉ w.usedNonces) ∧
      w2 = { w with
              buf := [],
              usedNonces := nonces.reverse ++ w.usedNonces,
              out := w.out ++ framesOf w.secretKey nonces (chunksOf p) } := by
  have hsmallcase : ∀ (p : List Nat) (w : EncWriter) supply w2 s2,
      p.length ≤ maxChunkSize → w.buf = [] →
      EncWriter.write w p supply = .ok (w2, s2) →
      ∃ nonces : List (List Nat), supply = nonces ++ s2 ∧
        nonces.length = (chunksOf p).length ∧ nonces.Nodup ∧
        (∀ x ∈ nonces, x ∉ w.usedNonces) ∧
        w2 = { w with
                buf := [],
                usedNonces := nonces.reverse ++ w.usedNonces,
                out := w.out ++ framesOf w.secretKey nonces (chunksOf p) } := by
    intro p w supply w2 s2 hp hbuf h
    rw [EncWriter.write, EncWriter.writeLoop_fits p w supply (by rw [hbuf]; simpa)] at h
    replace h : EncWriter.writeChunk { w with buf := w.buf ++ p } supply = .ok (w2, s2) := h
    rw [hbuf] at h
    simp only [List.nil_append] at h
    obtain ⟨nonce, hsup, hmem, hw2⟩ := EncWriter.writeChunk_ok_inv h
    refine ⟨[nonce], by simpa using hsup, ?_, by simp, ?_, ?_⟩
    · rw [chunksOf_small p hp]
      rfl
    · intro x hx
      simp only [List.mem_singleton] at hx
      subst hx
      exact hmem
    · rw [hw2, chunksOf_small p hp]
      simp [framesOf]
  intro n
  induction n with
  | zero =>
    intro p w supply w2 s2 hn hbuf h
    have hp : p.length ≤ maxChunkSize := by
      have := Nat.le_zero.mp hn
      simp [this, maxChunkSize]
    exact hsmallcase p w supply w2 s2 hp hbuf h
  | succ n ih =>
    intro p w supply w2 s2 hn hbuf h
    by_cases hsmall : p.length ≤ maxChunkSize
    · exact hsmallcase p w supply w2 s2 hsmall hbuf h
    · have hlarge := Nat.lt_of_not_le hsmall
      have h16 : 1 ≤ maxChunkSize := by simp [maxChunkSize]
      rw [EncWriter.write_unfold_large p w supply hbuf hlarge] at h
      cases hwc : EncWriter.writeChunk { w with buf := p.take maxChunkSize } supply with
      | error e =>
        rw [hwc] at h
        exact absurd h (by simp)
      | ok pair =>
        obtain ⟨w1, s1⟩ := pair
        rw [hwc] at h
        replace h : EncWriter.write w1 (p.drop maxChunkSize) s1 = .ok (w2, s2) := h
        obtain ⟨nonce, hsup, hmem, hw1⟩ := EncWriter.writeChunk_ok_inv hwc
        obtain ⟨nonces, hs1, hlen, hnodup, hfresh, hw2⟩ :=
          ih (p.drop maxChunkSize) w1 s1 w2 s2 (by rw [List.length_drop]; omega)
            (by rw [hw1]) h
        have hmem1 : ∀ x ∈ nonces, x ∉ nonce :: w.usedNonces := by
          intro x hx
          have := hfresh x hx
          rwa [hw1] at this
        refine ⟨nonce :: nonces, by rw [hsup, hs1]; rfl, ?_, ?_, ?_, ?_⟩
        · rw [chunksOf_large p hlarge]
          simp [hlen]
        · rw [List.nodup_cons]
          refine ⟨fun hin => ?_, hnodup⟩
          exact (hmem1 nonce hin) (List.mem_cons_self _ _)
        · intro x hx
          rcases List.mem_cons.mp hx with rfl | hx
          · exact hmem
          · have := hmem1 x hx
            simp only [List.mem_cons, not_or] at this
            exact this.2
        · rw [hw2, hw1, chunksOf_large p hlarge]
          simp [framesOf_cons, List.reverse_cons, List.append_assoc]

theorem pChunks_nil : pChunks [] = [] := by
  simp [pChunks]

theorem pChunks_ne_nil (p : List Nat) (h : p ≠ []) : pChunks p = chunksOf p := by
  simp [pChunks, h]

theorem framesOf_append (sk : List Nat) (ns1 cs1 ns2 cs2 : List (List Nat))
    (h : ns1.length = cs1.length) :
    framesOf sk (ns1 ++ ns2) (cs1 ++ cs2) = framesOf sk ns1 cs1 ++ framesOf sk ns2 cs2 := by
  rw [framesOf, List.zipWith_append _ _ _ _ _ h, List.flatten_append]
  rfl

theorem copyToWriterF_succ_nil (f : Nat) (w : EncWriter) (supply : List (List Nat)) :
    copyToWriterF (f + 1) w [] supply = .ok (w, supply) := rfl

theorem copyToWriterF_succ_cons (f : Nat) (w : EncWriter) (b : Nat) (pr : List Nat)
    (supply : List (List Nat)) :
    copyToWriterF (f + 1) w (b :: pr) supply =
      match w.write ((b :: pr).take 32768) supply with
      | .error e => .error e
      | .ok (w1, s1) => copyToWriterF f w1 ((b :: pr).drop 32768) s1 := rfl

theorem copyToWriter_eq_ok : ∀ fuel (p : List Nat) (w : EncWriter) supply,
    p.length + 32768 ≤ fuel * 32768 → w.buf = [] →
    (pChunks p).length ≤ supply.length →
    (supply.take (pChunks p).length).Nodup →
    (∀ x ∈ supply.take (pChunks p).length, x ∉ w.usedNonces) →
    copyToWriterF fuel w p supply =
      .ok ({ w with
              buf := [],
              usedNonces := (supply.take (pChunks p).length).reverse ++ w.usedNonces,
              out := w.out ++
                framesOf w.secretKey (supply.take (pChunks p).length) (pChunks p) },
           supply.drop (pChunks p).length) := by
  intro fuel
  induction fuel with
  | zero =>
    intro p w supply hf _ _ _ _
    exfalso
    simp only [Nat.zero_mul] at hf
    omega
  | succ f ih =>
    intro p w supply hf hbuf hlen hnodup hfresh
    cases p with
    | nil =>
      obtain ⟨wb, wu, wo, wk⟩ := w
      replace hbuf : wb = [] := hbuf
      subst hbuf
      rw [copyToWriterF_succ_nil]
      simp [pChunks, framesOf]
    | cons b pr =>
      have hne : (b :: pr) ≠ [] := by simp
      rw [copyToWriterF_succ_cons]
      by_cases hsz : (b :: pr).length ≤ 32768
      · rw [List.take_of_length_le hsz, List.drop_eq_nil_of_le hsz]
        rw [pChunks_ne_nil _ hne] at hlen hnodup hfresh ⊢
        rw [EncWriter.write_eq_ok (b :: pr).length (b :: pr) w supply le_rfl hbuf hlen
          hnodup hfresh]
        show copyToWriterF f _ [] _ = _
        obtain ⟨f1, rfl⟩ : ∃ f1, f = f1 + 1 := by
          cases f with
          | zero =>
            exfalso
            simp only [List.length_cons, Nat.one_mul] at hf
            omega
          | succ f1 => exact ⟨f1, rfl⟩
        rw [copyToWriterF_succ_nil]
      · have hgt : 32768 < (b :: pr).length := Nat.lt_of_not_le hsz
        have hdropne : (b :: pr).drop 32768 ≠ [] := by
          intro habs
          have hlen2 := congrArg List.length habs
          rw [List.length_drop] at hlen2
          simp only [List.length_nil] at hlen2
          omega
        have hcomp : pChunks (b :: pr) =
            chunksOf ((b :: pr).take 32768) ++ pChunks ((b :: pr).drop 32768) := by
          rw [pChunks_ne_nil _ hne, pChunks_ne_nil _ hdropne, chunksOf_append_32768 _ hgt]
        rw [hcomp] at hlen hnodup hfresh ⊢
        rw [List.length_append] at hlen hnodup hfresh ⊢
        rw [List.take_add] at hnodup hfresh ⊢
        have hnd := List.nodup_append.mp hnodup
        have hk1 : (chunksOf ((b :: pr).take 32768)).length ≤ supply.length := by omega
        rw [EncWriter.write_eq_ok ((b :: pr).take 32768).length ((b :: pr).take 32768) w
          supply le_rfl hbuf hk1 hnd.1
          (fun x hx => hfresh x (List.mem_append_left _ hx))]
        show copyToWriterF f _ ((b :: pr).drop 32768) _ = _
        rw [ih ((b :: pr).drop 32768) _ _
          (by rw [List.length_drop]; simp only [List.length_cons] at hf ⊢; omega)
          rfl
          (by rw [List.length_drop]; omega)
          hnd.2.1
          ?_]
        · rw [List.drop_drop]
          have hframes := framesOf_append w.secretKey
            (supply.take (chunksOf ((b :: pr).take 32768)).length)
            (chunksOf ((b :: pr).take 32768))
            ((supply.drop (chunksOf ((b :: pr).take 32768)).length).take
              (pChunks ((b :: pr).drop 32768)).length)
            (pChunks ((b :: pr).drop 32768))
            (by rw [List.length_take]; omega)
          simp only [List.reverse_append, List.append_assoc, hframes]
        · intro x hx
          simp only [List.mem_append, not_or]
          constructor
          · rw [List.mem_reverse]
            intro hx1
            exact hnd.2.2 hx1 hx
          · exact hfresh x (List.mem_append_right _ hx)

theorem copyToWriter_ok_inv : ∀ fuel (p : List Nat) (w : EncWriter) supply w2 s2,
    w.buf = [] →
    copyToWriterF fuel w p supply = .ok (w2, s2) →
    ∃ nonces : List (List Nat), supply = nonces ++ s2 ∧
      nonces.length = (pChunks p).length ∧ nonces.Nodup ∧
      (∀ x ∈ nonces, x ∉ w.usedNonces) ∧
      w2 = { w with
              buf := [],
              usedNonces := nonces.reverse ++ w.usedNonces,
              out := w.out ++ framesOf w.secretKey nonces (pChunks p) } := by
  intro fuel
  induction fuel with
  | zero =>
    intro p w supply w2 s2 _ h
    exact absurd h (by simp [copyToWriterF])
  | succ f ih =>
    intro p w supply w2 s2 hbuf h
    cases p with
    | nil =>
      rw [copyToWriterF_succ_nil] at h
      simp only [Except.ok.injEq, Prod.mk.injEq] at h
      obtain ⟨hw2, hs2⟩ := h
      refine ⟨[], by rw [hs2]; rfl, by simp [pChunks], by simp, by simp, ?_⟩
      obtain ⟨wb, wu, wo, wk⟩ := w
      replace hbuf : wb = [] := hbuf
      subst hbuf
      rw [← hw2]
      simp [pChunks, framesOf]
    | cons b pr =>
      have hne : (b :: pr) ≠ [] := by simp
      rw [copyToWriterF_succ_cons] at h
      cases hwr : EncWriter.write w ((b :: pr).take 32768) supply with
      | error e =>
        rw [hwr] at h
        exact absurd h (by simp)
      | ok pair =>
        obtain ⟨w1, s1⟩ := pair
        rw [hwr] at h
        replace h : copyToWriterF f w1 ((b :: pr).drop 32768) s1 = .ok (w2, s2) := h
        obtain ⟨n1, hsup, hlen1, hnodup1, hfresh1, hw1⟩ :=
          EncWriter.write_ok_inv ((b :: pr).take 32768).length ((b :: pr).take 32768) w
            supply w1 s1 le_rfl hbuf hwr
        obtain ⟨n2, hs1, hlen2, hnodup2, hfresh2, hw2⟩ :=
          ih ((b :: pr).drop 32768) w1 s1 w2 s2 (by rw [hw1]) h
        have hfresh2w : ∀ x ∈ n2, x ∉ n1.reverse ++ w.usedNonces := by
          intro x hx
          have := hfresh2 x hx
          rwa [hw1] at this
        have hdisj : n1.Disjoint n2 := by
          intro x hx1 hx2
          have := hfresh2w x hx2
          simp only [List.mem_append, not_or, List.mem_reverse] at this
          exact this.1 hx1
        by_cases hsz : (b :: pr).length ≤ 32768
        · rw [List.take_of_length_le hsz] at hlen1 hw1
          rw [List.drop_eq_nil_of_le hsz] at hlen2 hw2
          rw [pChunks_nil] at hlen2
          replace hlen2 : n2 = [] := by simpa using hlen2
          subst hlen2
          simp only [List.nil_append] at hs1
          refine ⟨n1, by rw [hsup, hs1], ?_, hnodup1, hfresh1, ?_⟩
          · rw [pChunks_ne_nil _ hne, hlen1]
          · rw [hw2, hw1, pChunks_ne_nil _ hne]
            simp [framesOf]
        · have hgt : 32768 < (b :: pr).length := Nat.lt_of_not_le hsz
          have hdropne : (b :: pr).drop 32768 ≠ [] := by
            intro habs
            have hlen3 := congrArg List.length habs
            rw [List.length_drop] at hlen3
            simp only [List.length_nil] at hlen3
            omega
          have hcomp : pChunks (b :: pr) =
              chunksOf ((b :: pr).take 32768) ++ pChunks ((b :: pr).drop 32768) := by
            rw [pChunks_ne_nil _ hne, pChunks_ne_nil _ hdropne, chunksOf_append_32768 _ hgt]
          refine ⟨n1 ++ n2, by rw [hsup, hs1, List.append_assoc], ?_, ?_, ?_, ?_⟩
          · rw [hcomp]
            simp [hlen1, hlen2]
          · exact List.nodup_append.mpr ⟨hnodup1, hnodup2, hdisj⟩
          · intro x hx
            rcases List.mem_append.mp hx with hx1 | hx2
            · exact hfresh1 x hx1
            · have := hfresh2w x hx2
              simp only [List.mem_append, not_or] at this
              exact this.2
          · rw [hw2, hw1, hcomp, framesOf_append _ _ _ _ _ hlen1]
            simp [List.reverse_append, List.append_assoc]

/-- Well-formedness of the nonce/chunk pairs of a ciphertext region as the
encryptor produces them for non-empty plaintext: 24-byte nonces, non-empty
chunks of at most `maxChunkSize` bytes, all entries byte-valued. -/
def wfPairs (nonces chunks : List (List Nat)) : Prop :=
  nonces.length = chunks.length ∧
  (∀ x ∈ nonces, x.length = 24) ∧
  (∀ c ∈ chunks, c ≠ [] ∧ c.length ≤ maxChunkSize ∧ ∀ x ∈ c, x < 256)

/-- Simulation relation for the decrypt loop: the DecReader state `b`
represents the pending plaintext `S` — either the cursor is at 0 and `S` is
the plaintext of the remaining well-formed frames, or the cursor is inside
the current chunk and `S` is the unread rest of that chunk followed by the
plaintext of the remaining frames. -/
def Rep (sk : List Nat) (b : DecReader) (S : List Nat) : Prop :=
  b.secretKey = sk ∧
  ((b.index = 0 ∧ ∃ nonces chunks, wfPairs nonces chunks ∧
      b.input = framesOf sk nonces chunks ∧ S = chunks.flatten) ∨
   (0 < b.index ∧ b.index < b.buf.length ∧ ∃ nonces chunks, wfPairs nonces chunks ∧
      b.input = framesOf sk nonces chunks ∧
      S = b.buf.drop b.index ++ chunks.flatten))

theorem DecReader.nextChunk_frame (sk nonce c : List Nat) (ns cs : List (List Nat))
    (b : DecReader) (hsk : b.secretKey = sk)
    (hin : b.input = frame sk nonce c ++ framesOf sk ns cs)
    (hn24 : nonce.length = 24) (hc : c.length ≤ maxChunkSize)
    (hbytes : ∀ x ∈ c, x < 256) :
    b.nextChunk = ({ b with input := framesOf sk ns cs, buf := c }, none) := by
  have hmax : maxChunkSize = 16384 := rfl
  have hseal := aeadSeal_length sk nonce c
  have hin' : b.input = nonce ++ (u64le (aeadSeal sk nonce c).length ++
      (aeadSeal sk nonce c ++ framesOf sk ns cs)) := by
    rw [hin, frame]
    simp [List.append_assoc]
  have h1 : b.input.take 24 = nonce := by
    rw [hin']
    exact List.take_left' hn24
  have h2 : b.input.drop 24 = u64le (aeadSeal sk nonce c).length ++
      (aeadSeal sk nonce c ++ framesOf sk ns cs) := by
    rw [hin']
    exact List.drop_left' hn24
  have h3 : (b.input.drop 24).take 8 = u64le (aeadSeal sk nonce c).length := by
    rw [h2]
    exact List.take_left' (u64le_length _)
  have h4 : (b.input.drop 24).drop 8 = aeadSeal sk nonce c ++ framesOf sk ns cs := by
    rw [h2]
    exact List.drop_left' (u64le_length _)
  have h5 : u64dec ((b.input.drop 24).take 8) = c.length + 16 := by
    rw [h3, hseal]
    exact u64dec_u64le _ (by omega)
  have h6 : ((b.input.drop 24).drop 8).take (u64dec ((b.input.drop 24).take 8)) =
      aeadSeal sk nonce c := by
    rw [h4, h5]
    exact List.take_left' (by rw [hseal])
  have h7 : ((b.input.drop 24).drop 8).drop (u64dec ((b.input.drop 24).take 8)) =
      framesOf sk ns cs := by
    rw [h4, h5]
    exact List.drop_left' (by rw [hseal])
  have h8 : aeadOpen b.secretKey (b.input.take 24)
      (((b.input.drop 24).drop 8).take (u64dec ((b.input.drop 24).take 8))) = some c := by
    rw [h1, h6, hsk]
    exact aeadOpen_aeadSeal sk nonce c hbytes
  have hlen_in : b.input.length = 24 + 8 + (c.length + 16) + (framesOf sk ns cs).length := by
    rw [hin']
    simp only [List.length_append, hn24, u64le_length, hseal]
    omega
  have h9 : (b.input.drop 24).length = 8 + (c.length + 16) + (framesOf sk ns cs).length := by
    rw [h2]
    simp only [List.length_append, u64le_length, hseal]
    omega
  have h10 : ((b.input.drop 24).drop 8).length = (c.length + 16) + (framesOf sk ns cs).length := by
    rw [h4]
    simp only [List.length_append, hseal]
  rw [DecReader.nextChunk]
  rw [if_neg (by omega), if_neg (by omega), if_neg (by omega), if_neg (by omega),
    if_neg (by omega), if_neg (by omega), if_neg (by omega), h7, h8]

theorem DecReader.read_succ (b : DecReader) (n : Nat) :
    DecReader.read b (n + 1) =
      match (if b.index = 0 then b.nextChunk else (b, none)) with
      | (b1, some e) => (b1, [], some e)
      | (b1, none) =>
        if h : b1.index < b1.buf.length then
          match DecReader.read
              { b1 with index := if b1.buf.length ≤ b1.index + 1 then 0 else b1.index + 1 } n with
          | (b3, bytes, e) => (b3, b1.buf.get ⟨b1.index, h⟩ :: bytes, e)
        else (b1, [], some .indexOutOfRange) := rfl

theorem DecReader.read_fetch_err (b b1 : DecReader) (e : Err) (n : Nat)
    (hidx : b.index = 0) (hnc : b.nextChunk = (b1, some e)) :
    DecReader.read b (n + 1) = (b1, [], some e) := by
  rw [DecReader.read_succ, if_pos hidx, hnc]

theorem DecReader.read_serve (b b1 b3 : DecReader) (bytes : List Nat) (er : Option Err)
    (n : Nat)
    (hstep : (if b.index = 0 then b.nextChunk else (b, none)) = (b1, none))
    (h : b1.index < b1.buf.length)
    (hrec : DecReader.read
      { b1 with index := if b1.buf.length ≤ b1.index + 1 then 0 else b1.index + 1 } n =
      (b3, bytes, er)) :
    DecReader.read b (n + 1) = (b3, b1.buf.get ⟨b1.index, h⟩ :: bytes, er) := by
  rw [DecReader.read_succ, hstep]
  show (if h : b1.index < b1.buf.length then
          match DecReader.read
              { b1 with index := if b1.buf.length ≤ b1.index + 1 then 0 else b1.index + 1 } n with
          | (b3, bytes, e) => (b3, b1.buf.get ⟨b1.index, h⟩ :: bytes, e)
        else (b1, [], some .indexOutOfRange)) = _
  rw [dif_pos h, hrec]

theorem read_rep : ∀ n (sk : List Nat) (b : DecReader) (S : List Nat), Rep sk b S →
    (n ≤ S.length →
      ∃ b2, DecReader.read b n = (b2, S.take n, none) ∧ Rep sk b2 (S.drop n)) ∧
    (S.length < n → ∃ b2, DecReader.read b n = (b2, S, some Err.eof)) := by
  intro n
  induction n with
  | zero =>
    intro sk b S hrep
    exact ⟨fun _ => ⟨b, rfl, by simpa using hrep⟩, fun h => absurd h (by omega)⟩
  | succ n ih =>
    intro sk b S hrep
    obtain ⟨bin, bbuf, bidx, bsk⟩ := b
    obtain ⟨hsk, hcase⟩ := hrep
    replace hsk : sk = bsk := hsk.symm
    subst hsk
    rcases hcase with ⟨hidx, nonces, chunks, hwf, hin, hS⟩ |
      ⟨hpos, hlen, nonces, chunks, hwf, hin, hS⟩
    · replace hidx : bidx = 0 := hidx
      subst hidx
      replace hin : bin = framesOf sk nonces chunks := hin
      subst hin
      subst hS
      cases chunks with
      | nil =>
        have hnonces : nonces = [] := List.length_eq_zero.mp (by simpa using hwf.1)
        subst hnonces
        constructor
        · intro hle
          exfalso
          simp at hle
        · intro _
          exact ⟨⟨framesOf sk [] [], bbuf, 0, sk⟩, rfl⟩
      | cons c cs =>
        obtain ⟨nonce, ns, rfl⟩ : ∃ nonce ns, nonces = nonce :: ns := by
          cases nonces with
          | nil =>
            exfalso
            have := hwf.1
            simp at this
          | cons x xs => exact ⟨x, xs, rfl⟩
        have hn24 : nonce.length = 24 := hwf.2.1 nonce (by simp)
        obtain ⟨hcne, hcle, hcbytes⟩ := hwf.2.2 c (by simp)
        have hwf' : wfPairs ns cs :=
          ⟨by have := hwf.1; simpa using this,
           fun x hx => hwf.2.1 x (by simp [hx]),
           fun x hx => hwf.2.2 x (by simp [hx])⟩
        have hnc := DecReader.nextChunk_frame sk nonce c ns cs
          ⟨framesOf sk (nonce :: ns) (c :: cs), bbuf, 0, sk⟩ rfl
          (by rw [framesOf_cons]) hn24 hcle hcbytes
        obtain ⟨ch, ct, rfl⟩ : ∃ ch ct, c = ch :: ct := by
          cases c with
          | nil => exact absurd rfl hcne
          | cons x xs => exact ⟨x, xs, rfl⟩
        have hstep : (if (⟨framesOf sk (nonce :: ns) ((ch :: ct) :: cs), bbuf, 0, sk⟩ :
              DecReader).index = 0 then
            DecReader.nextChunk ⟨framesOf sk (nonce :: ns) ((ch :: ct) :: cs), bbuf, 0, sk⟩
          else (⟨framesOf sk (nonce :: ns) ((ch :: ct) :: cs), bbuf, 0, sk⟩, none)) =
            (⟨framesOf sk ns cs, ch :: ct, 0, sk⟩, none) := by
          rw [if_pos rfl]
          exact hnc
        have hSflat : List.flatten ((ch :: ct) :: cs) = ch :: (ct ++ cs.flatten) := by
          simp [List.flatten_cons]
        by_cases hct : ct = []
        · subst hct
          have hrep2 : Rep sk (⟨framesOf sk ns cs, [ch], 0, sk⟩ : DecReader) cs.flatten :=
            ⟨rfl, Or.inl ⟨rfl, ns, cs, hwf', rfl, rfl⟩⟩
          have IH2 := ih sk ⟨framesOf sk ns cs, [ch], 0, sk⟩ cs.flatten hrep2
          constructor
          · intro hle
            have hS' : n ≤ cs.flatten.length := by
              rw [hSflat] at hle
              simp only [List.length_cons, List.nil_append] at hle ⊢
              omega
            obtain ⟨b4, hread4, hrep4⟩ := IH2.1 hS'
            refine ⟨b4, ?_, ?_⟩
            · rw [DecReader.read_serve _ ⟨framesOf sk ns cs, [ch], 0, sk⟩ b4
                (cs.flatten.take n) none n hstep (by simp) hread4]
              rw [hSflat]
              simp [List.take_succ_cons]
            · rw [hSflat]
              simpa [List.drop_succ_cons] using hrep4
          · intro hlt
            have hS' : cs.flatten.length < n := by
              rw [hSflat] at hlt
              simp only [List.length_cons, List.nil_append] at hlt ⊢
              omega
            obtain ⟨b4, hread4⟩ := IH2.2 hS'
            refine ⟨b4, ?_⟩
            rw [DecReader.read_serve _ ⟨framesOf sk ns cs, [ch], 0, sk⟩ b4
              cs.flatten (some Err.eof) n hstep (by simp) hread4]
            rw [hSflat]
            simp
        · have hctlen : 0 < ct.length := List.length_pos.mpr hct
          have hif : (if (ch :: ct).length ≤ 0 + 1 then (0 : Nat) else 0 + 1) = 1 := by
            rw [if_neg (by simp only [List.length_cons]; omega)]
          have hrep2 : Rep sk (⟨framesOf sk ns cs, ch :: ct, 1, sk⟩ : DecReader)
              (ct ++ cs.flatten) :=
            ⟨rfl, Or.inr ⟨by show (0 : Nat) < 1; omega,
              by show 1 < (ch :: ct).length; simp only [List.length_cons]; omega,
              ns, cs, hwf', rfl, rfl⟩⟩
          have IH2 := ih sk ⟨framesOf sk ns cs, ch :: ct, 1, sk⟩ (ct ++ cs.flatten) hrep2
          constructor
          · intro hle
            have hS' : n ≤ (ct ++ cs.flatten).length := by
              rw [hSflat] at hle
              simp only [List.length_cons] at hle
              simpa using Nat.le_of_succ_le_succ hle
            obtain ⟨b4, hread4, hrep4⟩ := IH2.1 hS'
            refine ⟨b4, ?_, ?_⟩
            · rw [DecReader.read_serve _ ⟨framesOf sk ns cs, ch :: ct, 0, sk⟩ b4
                ((ct ++ cs.flatten).take n) none n hstep (by simp)
                (by show DecReader.read ⟨framesOf sk ns cs, ch :: ct,
                      if (ch :: ct).length ≤ 0 + 1 then 0 else 0 + 1, sk⟩ n = _
                    rw [hif]
                    exact hread4)]
              rw [hSflat]
              simp [List.take_succ_cons]
            · rw [hSflat]
              simpa [List.drop_succ_cons] using hrep4
          · intro hlt
            have hS' : (ct ++ cs.flatten).length < n := by
              rw [hSflat] at hlt
              simp only [List.length_cons] at hlt
              simpa using Nat.lt_of_succ_lt_succ hlt
            obtain ⟨b4, hread4⟩ := IH2.2 hS'
            refine ⟨b4, ?_⟩
            rw [DecReader.read_serve _ ⟨framesOf sk ns cs, ch :: ct, 0, sk⟩ b4
              (ct ++ cs.flatten) (some Err.eof) n hstep (by simp)
              (by show DecReader.read ⟨framesOf sk ns cs, ch :: ct,
                    if (ch :: ct).length ≤ 0 + 1 then 0 else 0 + 1, sk⟩ n = _
                  rw [hif]
                  exact hread4)]
            rw [hSflat]
            simp
    · replace hpos : 0 < bidx := hpos
      replace hlen : bidx < bbuf.length := hlen
      replace hin : bin = framesOf sk nonces chunks := hin
      subst hin
      subst hS
      have hstep : (if (⟨framesOf sk nonces chunks, bbuf, bidx, sk⟩ :
            DecReader).index = 0 then
          DecReader.nextChunk ⟨framesOf sk nonces chunks, bbuf, bidx, sk⟩
        else (⟨framesOf sk nonces chunks, bbuf, bidx, sk⟩, none)) =
          (⟨framesOf sk nonces chunks, bbuf, bidx, sk⟩, none) := by
        rw [if_neg (by simp only []; omega)]
      have hSdec : bbuf.drop bidx ++ chunks.flatten =
          bbuf[bidx] :: (bbuf.drop (bidx + 1) ++ chunks.flatten) := by
        rw [List.drop_eq_getElem_cons hlen]
        rfl
      by_cases hb : bbuf.length ≤ bidx + 1
      · have hdropnil : bbuf.drop (bidx + 1) = [] := List.drop_eq_nil_of_le hb
        have hif : (if bbuf.length ≤ bidx + 1 then (0 : Nat) else bidx + 1) = 0 := by
          rw [if_pos hb]
        have hrep2 : Rep sk (⟨framesOf sk nonces chunks, bbuf, 0, sk⟩ : DecReader)
            chunks.flatten :=
          ⟨rfl, Or.inl ⟨rfl, nonces, chunks, hwf, rfl, rfl⟩⟩
        have IH2 := ih sk ⟨framesOf sk nonces chunks, bbuf, 0, sk⟩ chunks.flatten hrep2
        constructor
        · intro hle
          have hS' : n ≤ chunks.flatten.length := by
            rw [hSdec] at hle
            simp only [List.length_cons, hdropnil, List.nil_append] at hle ⊢
            omega
          obtain ⟨b4, hread4, hrep4⟩ := IH2.1 hS'
          refine ⟨b4, ?_, ?_⟩
          · rw [DecReader.read_serve _ ⟨framesOf sk nonces chunks, bbuf, bidx, sk⟩ b4
              (chunks.flatten.take n) none n hstep hlen
              (by show DecReader.read ⟨framesOf sk nonces chunks, bbuf,
                    if bbuf.length ≤ bidx + 1 then 0 else bidx + 1, sk⟩ n = _
                  rw [hif]
                  exact hread4)]
            rw [hSdec, hdropnil]
            simp [List.take_succ_cons]
          · rw [hSdec, hdropnil]
            simpa [List.drop_succ_cons] using hrep4
        · intro hlt
          have hS' : chunks.flatten.length < n := by
            rw [hSdec] at hlt
            simp only [List.length_cons, hdropnil, List.nil_append] at hlt ⊢
            omega
          obtain ⟨b4, hread4⟩ := IH2.2 hS'
          refine ⟨b4, ?_⟩
          rw [DecReader.read_serve _ ⟨framesOf sk nonces chunks, bbuf, bidx, sk⟩ b4
            chunks.flatten (some Err.eof) n hstep hlen
            (by show DecReader.read ⟨framesOf sk nonces chunks, bbuf,
                  if bbuf.length ≤ bidx + 1 then 0 else bidx + 1, sk⟩ n = _
                rw [hif]
                exact hread4)]
          rw [hSdec, hdropnil]
          simp
      · have hif : (if bbuf.length ≤ bidx + 1 then (0 : Nat) else bidx + 1) = bidx + 1 := by
          rw [if_neg hb]
        have hrep2 : Rep sk (⟨framesOf sk nonces chunks, bbuf, bidx + 1, sk⟩ : DecReader)
            (bbuf.drop (bidx + 1) ++ chunks.flatten) :=
          ⟨rfl, Or.inr ⟨by show 0 < bidx + 1; omega,
            by show bidx + 1 < bbuf.length; omega, nonces, chunks, hwf, rfl, rfl⟩⟩
        have IH2 := ih sk ⟨framesOf sk nonces chunks, bbuf, bidx + 1, sk⟩
          (bbuf.drop (bidx + 1) ++ chunks.flatten) hrep2
        constructor
        · intro hle
          have hS' : n ≤ (bbuf.drop (bidx + 1) ++ chunks.flatten).length := by
            rw [hSdec] at hle
            simp only [List.length_cons] at hle
            exact Nat.le_of_succ_le_succ hle
          obtain ⟨b4, hread4, hrep4⟩ := IH2.1 hS'
          refine ⟨b4, ?_, ?_⟩
          · rw [DecReader.read_serve _ ⟨framesOf sk nonces chunks, bbuf, bidx, sk⟩ b4
              ((bbuf.drop (bidx + 1) ++ chunks.flatten).take n) none n hstep hlen
              (by show DecReader.read ⟨framesOf sk nonces chunks, bbuf,
                    if bbuf.length ≤ bidx + 1 then 0 else bidx + 1, sk⟩ n = _
                  rw [hif]
                  exact hread4)]
            rw [hSdec]
            simp [List.take_succ_cons]
          · rw [hSdec]
            simpa [List.drop_succ_cons] using hrep4
        · intro hlt
          have hS' : (bbuf.drop (bidx + 1) ++ chunks.flatten).length < n := by
            rw [hSdec] at hlt
            simp only [List.length_cons] at hlt
            exact Nat.lt_of_succ_lt_succ hlt
          obtain ⟨b4, hread4⟩ := IH2.2 hS'
          refine ⟨b4, ?_⟩
          rw [DecReader.read_serve _ ⟨framesOf sk nonces chunks, bbuf, bidx, sk⟩ b4
            (bbuf.drop (bidx + 1) ++ chunks.flatten) (some Err.eof) n hstep hlen
            (by show DecReader.read ⟨framesOf sk nonces chunks, bbuf,
                  if bbuf.length ≤ bidx + 1 then 0 else bidx + 1, sk⟩ n = _
                rw [hif]
                exact hread4)]
          rw [hSdec]
          simp [List.get_eq_getElem]

theorem copyFromReader_succ (f : Nat) (b : DecReader) (acc : List Nat) :
    copyFromReader (f + 1) b acc =
      match b.read 32768 with
      | (_, bytes, some .eof) => .ok (acc ++ bytes)
      | (_, _, some e) => .error e
      | (b1, bytes, none) => copyFromReader f b1 (acc ++ bytes) := rfl

theorem copyFromReader_rep : ∀ fuel (sk : List Nat) (b : DecReader) (S acc : List Nat),
    Rep sk b S → S.length < fuel * 32768 →
    copyFromReader fuel b acc = .ok (acc ++ S) := by
  intro fuel
  induction fuel with
  | zero =>
    intro sk b S acc _ hf
    exact absurd hf (by omega)
  | succ f ih =>
    intro sk b S acc hrep hf
    rw [copyFromReader_succ]
    by_cases hle : 32768 ≤ S.length
    · obtain ⟨b2, hread, hrep2⟩ := (read_rep 32768 sk b S hrep).1 hle
      rw [hread]
      show copyFromReader f b2 (acc ++ S.take 32768) = _
      rw [ih sk b2 (S.drop 32768) (acc ++ S.take 32768) hrep2
        (by rw [List.length_drop]; omega)]
      rw [List.append_assoc, List.take_append_drop]
    · obtain ⟨b2, hread⟩ := (read_rep 32768 sk b S hrep).2 (by omega)
      rw [hread]

theorem frame_length (sk nonce c : List Nat) :
    (frame sk nonce c).length = nonce.length + 8 + (c.length + 16) := by
  simp only [frame, List.length_append, u64le_length, aeadSeal_length]

theorem framesOf_length_ge (sk : List Nat) : ∀ ns cs : List (List Nat),
    ns.length = cs.length → cs.flatten.length ≤ (framesOf sk ns cs).length := by
  intro ns
  induction ns with
  | nil =>
    intro cs h
    have hcs : cs = [] := List.length_eq_zero.mp (by simpa using h.symm)
    subst hcs
    simp [framesOf]
  | cons nonce ns ih =>
    intro cs h
    cases cs with
    | nil => simp at h
    | cons c cs1 =>
      rw [framesOf_cons]
      simp only [List.flatten_cons, List.length_append, frame_length]
      have := ih cs1 (by simpa using h)
      omega

theorem mem_set_or (l : List Nat) : ∀ (i : Nat) (v b : Nat), b ∈ l.set i v →
    b = v ∨ b ∈ l := by
  induction l with
  | nil =>
    intro i v b hb
    simp at hb
  | cons a t ih =>
    intro i v b hb
    cases i with
    | zero =>
      simp only [List.set_cons_zero, List.mem_cons] at hb
      rcases hb with rfl | hb
      · exact Or.inl rfl
      · exact Or.inr (List.mem_cons_of_mem _ hb)
    | succ i =>
      simp only [List.set_cons_succ, List.mem_cons] at hb
      rcases hb with rfl | hb
      · exact Or.inr (List.mem_cons_self _ _)
      · rcases ih i v b hb with h | h
        · exact Or.inl h
        · exact Or.inr (List.mem_cons_of_mem _ h)

theorem framesOf_bytes_lt (sk : List Nat) : ∀ ns cs : List (List Nat),
    (∀ x ∈ ns, ∀ b ∈ x, b < 256) → ∀ b ∈ framesOf sk ns cs, b < 256 := by
  intro ns
  induction ns with
  | nil =>
    intro cs _ b hb
    simp [framesOf] at hb
  | cons nonce ns ih =>
    intro cs hns b hb
    cases cs with
    | nil =>
      simp [framesOf] at hb
    | cons c cs1 =>
      rw [framesOf_cons] at hb
      rcases List.mem_append.mp hb with hb | hb
      · rw [frame] at hb
        simp only [List.mem_append] at hb
        rcases hb with (hb | hb) | hb
        · exact hns nonce (by simp) b hb
        · exact u64le_bytes_lt _ b hb
        · exact aeadSeal_bytes_lt _ _ _ b hb
      · exact ih cs1 (fun x hx => hns x (by simp [hx])) b hb

theorem headerBytes_length (h : fileHeader) (hsalt : h.salt.length = 32)
    (htag : h.tag.length = 64) : (headerBytes h).length = 105 := by
  simp [headerBytes, hsalt, htag, u32le_length]

theorem parseHeader_headerBytes (h : fileHeader) (rest : List Nat)
    (hsalt : h.salt.length = 32) (htag : h.tag.length = 64)
    (htime : h.argonTime < 2 ^ 32) (hmem : h.argonMemory < 2 ^ 32)
    (hlanes : h.argonLanes < 256) :
    parseHeader (headerBytes h ++ rest) = some (h, rest) := by
  obtain ⟨salt, time, mem, lanes, tag⟩ := h
  replace hsalt : salt.length = 32 := hsalt
  replace htag : tag.length = 64 := htag
  replace htime : time < 2 ^ 32 := htime
  replace hmem : mem < 2 ^ 32 := hmem
  replace hlanes : lanes < 256 := hlanes
  have hfile : headerBytes ⟨salt, time, mem, lanes, tag⟩ ++ rest =
      salt ++ (u32le time ++ (u32le mem ++ ([lanes % 256] ++ (tag ++ rest)))) := by
    simp [headerBytes, List.append_assoc]
  have e32 : (headerBytes ⟨salt, time, mem, lanes, tag⟩ ++ rest).drop 32 =
      u32le time ++ (u32le mem ++ ([lanes % 256] ++ (tag ++ rest))) := by
    rw [hfile]
    exact List.drop_left' hsalt
  have e36 : (headerBytes ⟨salt, time, mem, lanes, tag⟩ ++ rest).drop 36 =
      u32le mem ++ ([lanes % 256] ++ (tag ++ rest)) := by
    rw [show (36 : Nat) = 32 + 4 from rfl, ← List.drop_drop, e32]
    exact List.drop_left' (u32le_length _)
  have e40 : (headerBytes ⟨salt, time, mem, lanes, tag⟩ ++ rest).drop 40 =
      [lanes % 256] ++ (tag ++ rest) := by
    rw [show (40 : Nat) = 36 + 4 from rfl, ← List.drop_drop, e36]
    exact List.drop_left' (u32le_length _)
  have e41 : (headerBytes ⟨salt, time, mem, lanes, tag⟩ ++ rest).drop 41 =
      tag ++ rest := by
    rw [show (41 : Nat) = 40 + 1 from rfl, ← List.drop_drop, e40]
    rfl
  have e105 : (headerBytes ⟨salt, time, mem, lanes, tag⟩ ++ rest).drop 105 = rest := by
    rw [show (105 : Nat) = 41 + 64 from rfl, ← List.drop_drop, e41]
    exact List.drop_left' htag
  have hflen : (headerBytes ⟨salt, time, mem, lanes, tag⟩ ++ rest).length =
      105 + rest.length := by
    rw [List.length_append, headerBytes_length _ hsalt htag]
  rw [parseHeader, if_neg (by omega)]
  congr 1
  refine Prod.ext ?_ e105
  show fileHeader.mk _ _ _ _ _ = _
  congr 1
  · rw [hfile]
    exact List.take_left' hsalt
  · rw [e32, List.take_left' (u32le_length _), u32dec_u32le _ htime]
  · rw [e36, List.take_left' (u32le_length _), u32dec_u32le _ hmem]
  · rw [e40]
    show lanes % 256 = lanes
    exact Nat.mod_eq_of_lt hlanes
  · rw [e41]
    exact List.take_left' htag

/-- Secret key derived on the encrypt side (first 32 Argon2id output slots). -/
def encSK (passphrase : List Nat) (numCPU : Nat) (salt : List Nat) : List Nat :=
  (generateKey passphrase numCPU salt).1.take 32

/-- MAC key derived on the encrypt side (second 32 Argon2id output slots). -/
def encMacKey (passphrase : List Nat) (numCPU : Nat) (salt : List Nat) : List Nat :=
  ((generateKey passphrase numCPU salt).1.drop 32).take 32

/-- Ciphertext region the encrypt pipeline emits for a given nonce supply. -/
def encCT (passphrase p : List Nat) (numCPU : Nat) (salt : List Nat)
    (supply : List (List Nat)) : List Nat :=
  framesOf (encSK passphrase numCPU salt) (supply.take (pChunks p).length) (pChunks p)

/-- Completed header the encrypt pipeline writes back at offset 0. -/
def encHeader (passphrase p : List Nat) (numCPU : Nat) (salt : List Nat)
    (supply : List (List Nat)) : fileHeader :=
  { salt := salt, argonTime := defaultArgonTime, argonMemory := defaultArgonMemory,
    argonLanes := numCPU * 2 % 256,
    tag := blake2b512 (encMacKey passphrase numCPU salt)
      (encCT passphrase p numCPU salt supply) }

theorem wfPairs_enc (p : List Nat) (supply : List (List Nat))
    (hbytes : ∀ x ∈ p, x < 256)
    (hlen : (pChunks p).length ≤ supply.length)
    (hn24 : ∀ x ∈ supply.take (pChunks p).length, x.length = 24) :
    wfPairs (supply.take (pChunks p).length) (pChunks p) := by
  refine ⟨?_, hn24, ?_⟩
  · rw [List.length_take]
    omega
  · intro c hc
    by_cases hp : p = []
    · subst hp
      simp [pChunks] at hc
    · rw [pChunks_ne_nil _ hp] at hc
      exact ⟨chunksOf_chunk_ne_nil p.length p le_rfl hp c hc,
        chunksOf_chunk_le p.length p le_rfl c hc,
        fun b hb => hbytes b (chunksOf_chunk_mem p.length p le_rfl c hc b hb)⟩

theorem pChunks_flatten (p : List Nat) : (pChunks p).flatten = p := by
  by_cases hp : p = []
  · subst hp
    simp [pChunks]
  · rw [pChunks_ne_nil _ hp]
    exact chunksOf_flatten p.length p le_rfl

theorem encryptFileModel_eq (passphrase p : List Nat) (numCPU : Nat) (salt : List Nat)
    (supply : List (List Nat))
    (hlen : (pChunks p).length ≤ supply.length)
    (hnodup : (supply.take (pChunks p).length).Nodup) :
    encryptFileModel passphrase p numCPU salt supply =
      .ok (headerBytes (encHeader passphrase p numCPU salt supply) ++
        encCT passphrase p numCPU salt supply) := by
  rw [encryptFileModel,
    copyToWriter_eq_ok (p.length + 1) p
      (mkWriter ((generateKey passphrase numCPU salt).1.take 32)) supply
      (by omega) rfl hlen hnodup (by intro x hx; simp [mkWriter])]
  show Except.ok _ = _
  simp [mkWriter, encCT, encHeader, encMacKey, encSK, generateKey, generateKeyHeader]

theorem decryptFileModel_parsed (passphrase file : List Nat) (h : fileHeader)
    (ct : List Nat) (hparse : parseHeader file = some (h, ct)) :
    decryptFileModel passphrase file =
      if blake2b512
          (((argon2IDKey passphrase h.salt h.argonTime h.argonMemory h.argonLanes 64).drop
            32).take 32) ct = h.tag then
        copyFromReader (ct.length + 1)
          (mkReader
            ((argon2IDKey passphrase h.salt h.argonTime h.argonMemory h.argonLanes 64).take
              32) ct) []
      else .error .badMAC := by
  rw [decryptFileModel, hparse]

theorem parseHeader_encFile (passphrase p : List Nat) (numCPU : Nat) (salt : List Nat)
    (supply : List (List Nat)) (rest : List Nat) (hsalt : salt.length = 32) :
    parseHeader (headerBytes (encHeader passphrase p numCPU salt supply) ++ rest) =
      some (encHeader passphrase p numCPU salt supply, rest) := by
  apply parseHeader_headerBytes
  · simpa [encHeader] using hsalt
  · simp [encHeader, blake2b512]
  · simp [encHeader, defaultArgonTime]
  · simp [encHeader, defaultArgonMemory]
  · simp only [encHeader]
    exact Nat.mod_lt _ (by norm_num)

theorem decryptFileModel_eq (passphrase p : List Nat) (numCPU : Nat) (salt : List Nat)
    (supply : List (List Nat))
    (hbytes : ∀ x ∈ p, x < 256)
    (hsalt : salt.length = 32)
    (hlen : (pChunks p).length ≤ supply.length)
    (hn24 : ∀ x ∈ supply.take (pChunks p).length, x.length = 24) :
    decryptFileModel passphrase
      (headerBytes (encHeader passphrase p numCPU salt supply) ++
        encCT passphrase p numCPU salt supply) = .ok p := by
  rw [decryptFileModel_parsed _ _ _ _
    (parseHeader_encFile passphrase p numCPU salt supply _ hsalt)]
  have hkdf : argon2IDKey passphrase (encHeader passphrase p numCPU salt supply).salt
      (encHeader passphrase p numCPU salt supply).argonTime
      (encHeader passphrase p numCPU salt supply).argonMemory
      (encHeader passphrase p numCPU salt supply).argonLanes 64 =
      (generateKey passphrase numCPU salt).1 := by
    simp [encHeader, generateKey, generateKeyHeader]
  have hcond : blake2b512
      (((argon2IDKey passphrase (encHeader passphrase p numCPU salt supply).salt
        (encHeader passphrase p numCPU salt supply).argonTime
        (encHeader passphrase p numCPU salt supply).argonMemory
        (encHeader passphrase p numCPU salt supply).argonLanes 64).drop 32).take 32)
      (encCT passphrase p numCPU salt supply) =
      (encHeader passphrase p numCPU salt supply).tag := by
    rw [hkdf]
    simp [encHeader, encMacKey]
  rw [if_pos hcond, hkdf]
  have hwf := wfPairs_enc p supply hbytes hlen hn24
  have hrep : Rep (encSK passphrase numCPU salt)
      (mkReader ((generateKey passphrase numCPU salt).1.take 32)
        (encCT passphrase p numCPU salt supply)) p :=
    ⟨rfl, Or.inl ⟨rfl, supply.take (pChunks p).length, pChunks p, hwf, rfl,
      (pChunks_flatten p).symm⟩⟩
  have hct_ge : p.length ≤ (encCT passphrase p numCPU salt supply).length := by
    have h1 := framesOf_length_ge (encSK passphrase numCPU salt)
      (supply.take (pChunks p).length) (pChunks p) hwf.1
    rwa [pChunks_flatten] at h1
  rw [copyFromReader_rep ((encCT passphrase p numCPU salt supply).length + 1)
    (encSK passphrase numCPU salt) _ p [] hrep (by omega)]
  simp

theorem aeadOpen_length {k n ct pt : List Nat} (h : aeadOpen k n ct = some pt) :
    pt.length = ct.length - 16 := by
  rw [aeadOpen] at h
  split_ifs at h with h1 h2
  simp only [Option.some.injEq] at h
  subst h
  simp only [List.length_map, List.length_take]
  omega

theorem DecReader.nextChunk_ok_inv {b b2 : DecReader} (h : b.nextChunk = (b2, none)) :
    b2.buf.length ≤ maxChunkSize ∧ b2.secretKey = b.secretKey ∧ b2.index = b.index := by
  rw [DecReader.nextChunk] at h
  split_ifs at h with h1 h2 h3 h4 h5 h6 h7
  · exact absurd (congrArg Prod.snd h) (by simp)
  · exact absurd (congrArg Prod.snd h) (by simp)
  · exact absurd (congrArg Prod.snd h) (by simp)
  · exact absurd (congrArg Prod.snd h) (by simp)
  · exact absurd (congrArg Prod.snd h) (by simp)
  · exact absurd (congrArg Prod.snd h) (by simp)
  · exact absurd (congrArg Prod.snd h) (by simp)
  · rcases haead : aeadOpen b.secretKey (b.input.take 24)
        (((b.input.drop 24).drop 8).take (u64dec ((b.input.drop 24).take 8))) with _ | pt
    · rw [haead] at h
      exact absurd (congrArg Prod.snd h) (by simp)
    · rw [haead] at h
      replace h : ({ b with
          input := ((b.input.drop 24).drop 8).drop (u64dec ((b.input.drop 24).take 8)),
          buf := pt } : DecReader) = b2 ∧ (none : Option Err) = none := by
        constructor
        · exact congrArg Prod.fst h
        · rfl
      obtain ⟨hb2, -⟩ := h
      have hlen := aeadOpen_length haead
      rw [← hb2]
      refine ⟨?_, rfl, rfl⟩
      show pt.length ≤ maxChunkSize
      rw [hlen, List.length_take]
      omega

theorem DecReader.nextChunk_err_buf {b b2 : DecReader} {e : Err}
    (h : b.nextChunk = (b2, some e)) : b2.buf = b.buf := by
  rw [DecReader.nextChunk] at h
  split_ifs at h with h1 h2 h3 h4 h5 h6 h7
  · exact (congrArg (fun r => r.1.buf) h).symm ▸ rfl
  · exact (congrArg (fun r => r.1.buf) h).symm ▸ rfl
  · exact (congrArg (fun r => r.1.buf) h).symm ▸ rfl
  · exact (congrArg (fun r => r.1.buf) h).symm ▸ rfl
  · exact (congrArg (fun r => r.1.buf) h).symm ▸ rfl
  · exact (congrArg (fun r => r.1.buf) h).symm ▸ rfl
  · exact (congrArg (fun r => r.1.buf) h).symm ▸ rfl
  · rcases haead : aeadOpen b.secretKey (b.input.take 24)
        (((b.input.drop 24).drop 8).take (u64dec ((b.input.drop 24).take 8))) with _ | pt
    · rw [haead] at h
      exact (congrArg (fun r => r.1.buf) h).symm ▸ rfl
    · rw [haead] at h
      exact absurd (congrArg Prod.snd h) (by simp)

theorem DecReader.nextChunk_oversize (sk junk tail : List Nat) (L : Nat) (b : DecReader)
    (hin : b.input = junk ++ u64le L ++ tail) (hj : junk.length = 24)
    (hL : maxChunkSize + 16 < L) (hL64 : L < 2 ^ 64) :
    b.nextChunk = ({ b with input := tail }, some Err.chunkTooLarge) := by
  have hin' : b.input = junk ++ (u64le L ++ tail) := by
    rw [hin, List.append_assoc]
  have h2 : b.input.drop 24 = u64le L ++ tail := by
    rw [hin']
    exact List.drop_left' hj
  have h3 : (b.input.drop 24).take 8 = u64le L := by
    rw [h2]
    exact List.take_left' (u64le_length _)
  have h4 : (b.input.drop 24).drop 8 = tail := by
    rw [h2]
    exact List.drop_left' (u64le_length _)
  have h5 : u64dec ((b.input.drop 24).take 8) = L := by
    rw [h3]
    exact u64dec_u64le _ hL64
  have hlen_in : b.input.length = 24 + (8 + tail.length) := by
    rw [hin']
    simp only [List.length_append, hj, u64le_length]
  have h9 : (b.input.drop 24).length = 8 + tail.length := by
    rw [h2]
    simp only [List.length_append, u64le_length]
  rw [DecReader.nextChunk, if_neg (by omega), if_neg (by omega), if_neg (by omega),
    if_neg (by omega), if_pos (by omega), h4]

theorem getD_set_self (l : List Nat) : ∀ (i v : Nat), i < l.length →
    (l.set i v).getD i 0 = v := by
  induction l with
  | nil =>
    intro i v h
    simp at h
  | cons a t ih =>
    intro i v h
    cases i with
    | zero => simp
    | succ i => simpa using ih i v (by simpa using h)

theorem encHeader_kdf (passphrase p : List Nat) (numCPU : Nat) (salt : List Nat)
    (supply : List (List Nat)) :
    argon2IDKey passphrase (encHeader passphrase p numCPU salt supply).salt
      (encHeader passphrase p numCPU salt supply).argonTime
      (encHeader passphrase p numCPU salt supply).argonMemory
      (encHeader passphrase p numCPU salt supply).argonLanes 64 =
      (generateKey passphrase numCPU salt).1 := by
  simp [encHeader, generateKey, generateKeyHeader]

theorem read_buf_bound : ∀ (n : Nat) (b : DecReader), b.buf.length ≤ 3 * maxChunkSize →
    ((DecReader.read b n).1).buf.length ≤ 3 * maxChunkSize := by
  intro n
  induction n with
  | zero =>
    intro b hb
    exact hb
  | succ n ih =>
    intro b hb
    rw [DecReader.read_succ]
    rcases hfetch : (if b.index = 0 then b.nextChunk else (b, none)) with ⟨b1, e⟩
    cases e with
    | some err =>
      show b1.buf.length ≤ _
      by_cases hidx : b.index = 0
      · rw [if_pos hidx] at hfetch
        rw [DecReader.nextChunk_err_buf hfetch]
        exact hb
      · rw [if_neg hidx] at hfetch
        exact absurd (congrArg Prod.snd hfetch) (by simp)
    | none =>
      have hbuf1 : b1.buf.length ≤ 3 * maxChunkSize := by
        by_cases hidx : b.index = 0
        · rw [if_pos hidx] at hfetch
          have h1 := (DecReader.nextChunk_ok_inv hfetch).1
          omega
        · rw [if_neg hidx] at hfetch
          have hbb : b = b1 := congrArg Prod.fst hfetch
          rw [← hbb]
          exact hb
      show ((if h : b1.index < b1.buf.length then
          match DecReader.read
              { b1 with index := if b1.buf.length ≤ b1.index + 1 then 0 else b1.index + 1 } n with
          | (b3, bytes, e) => (b3, b1.buf.get ⟨b1.index, h⟩ :: bytes, e)
        else (b1, [], some Err.indexOutOfRange)).1).buf.length ≤ 3 * maxChunkSize
      by_cases hpos : b1.index < b1.buf.length
      · rw [dif_pos hpos]
        rcases hr : DecReader.read
            { b1 with index := if b1.buf.length ≤ b1.index + 1 then 0 else b1.index + 1 } n
          with ⟨b3, bytes, er⟩
        show b3.buf.length ≤ _
        have := ih { b1 with index := if b1.buf.length ≤ b1.index + 1 then 0 else b1.index + 1 }
          (by show b1.buf.length ≤ _; exact hbuf1)
        rwa [hr] at this
      · rw [dif_neg hpos]
        exact hbuf1

/-- Composition of the two file operations under one passphrase: encrypt the
plaintext, then decrypt the resulting file. -/
def encryptThenDecrypt (passphrase p : List Nat) (numCPU : Nat) (salt : List Nat)
    (supply : List (List Nat)) : Except Err (List Nat) :=
  match encryptFileModel passphrase p numCPU salt supply with
  | .error e => .error e
  | .ok file => decryptFileModel passphrase file

/-- C1: for every passphrase and every byte-valued plaintext, decrypting the
file produced by `encryptFile` with the same passphrase yields exactly the
plaintext, for any fresh salt of the correct length and any sufficient
supply of distinct 24-byte nonces. -/
theorem c1_round_trip (passphrase p : List Nat) (numCPU : Nat) (salt : List Nat)
    (supply : List (List Nat))
    (hbytes : ∀ x ∈ p, x < 256) (hsalt : salt.length = 32)
    (hlen : (pChunks p).length ≤ supply.length)
    (hnodup : (supply.take (pChunks p).length).Nodup)
    (hn24 : ∀ x ∈ supply.take (pChunks p).length, x.length = 24) :
    encryptThenDecrypt passphrase p numCPU salt supply = .ok p := by
  rw [encryptThenDecrypt, encryptFileModel_eq passphrase p numCPU salt supply hlen hnodup]
  exact decryptFileModel_eq passphrase p numCPU salt supply hbytes hsalt hlen hn24

/-- Witness for C1 at a concrete instance: two plaintext bytes, a zero salt
and a single fresh nonce. -/
theorem c1_round_trip_witness :
    (∀ x ∈ [1, 2], x < 256) ∧ (List.replicate 32 0 : List Nat).length = 32 ∧
    (pChunks [1, 2]).length ≤ [List.replicate 24 3].length ∧
    ([List.replicate 24 3].take (pChunks [1, 2]).length).Nodup ∧
    (∀ x ∈ [List.replicate 24 3].take (pChunks [1, 2]).length, x.length = 24) ∧
    encryptThenDecrypt [7] [1, 2] 1 (List.replicate 32 0) [List.replicate 24 3] =
      .ok [1, 2] :=
  ⟨by decide, by decide, by decide, by decide, by decide,
   c1_round_trip [7] [1, 2] 1 (List.replicate 32 0) [List.replicate 24 3]
     (by decide) (by decide) (by decide) (by decide) (by decide)⟩

/-- C2: for a non-empty ciphertext region produced by encryption, any
single-byte mutation of the ciphertext region (to a different byte value)
and any truncation of it make `decryptFile` fail with `errBadMAC`, without
producing any output. -/
theorem c2_authentication (passphrase p : List Nat) (numCPU : Nat) (salt : List Nat)
    (supply : List (List Nat))
    (hp : p ≠ []) (hbytes : ∀ x ∈ p, x < 256) (hsalt : salt.length = 32)
    (hlen : (pChunks p).length ≤ supply.length)
    (hnbytes : ∀ x ∈ supply.take (pChunks p).length, ∀ b ∈ x, b < 256) :
    (∀ i v, i < (encCT passphrase p numCPU salt supply).length → v < 256 →
      v ≠ (encCT passphrase p numCPU salt supply).getD i 0 →
      decryptFileModel passphrase
        (headerBytes (encHeader passphrase p numCPU salt supply) ++
          (encCT passphrase p numCPU salt supply).set i v) = .error .badMAC) ∧
    (∀ m, m < (encCT passphrase p numCPU salt supply).length →
      decryptFileModel passphrase
        (headerBytes (encHeader passphrase p numCPU salt supply) ++
          (encCT passphrase p numCPU salt supply).take m) = .error .badMAC) := by
  have hctbytes : ∀ b ∈ encCT passphrase p numCPU salt supply, b < 256 :=
    framesOf_bytes_lt _ _ _ hnbytes
  have hbad : ∀ ct2 : List Nat, (∀ b ∈ ct2, b < 256) →
      ct2 ≠ encCT passphrase p numCPU salt supply →
      decryptFileModel passphrase
        (headerBytes (encHeader passphrase p numCPU salt supply) ++ ct2) =
        .error .badMAC := by
    intro ct2 hb2 hne
    rw [decryptFileModel_parsed _ _ _ _
      (parseHeader_encFile passphrase p numCPU salt supply ct2 hsalt)]
    have hcondne : ¬ (blake2b512 (((argon2IDKey passphrase
        (encHeader passphrase p numCPU salt supply).salt
        (encHeader passphrase p numCPU salt supply).argonTime
        (encHeader passphrase p numCPU salt supply).argonMemory
        (encHeader passphrase p numCPU salt supply).argonLanes 64).drop 32).take 32)
        ct2 = (encHeader passphrase p numCPU salt supply).tag) := by
      rw [encHeader_kdf]
      show ¬ (blake2b512 (encMacKey passphrase numCPU salt) ct2 = _)
      have htag : (encHeader passphrase p numCPU salt supply).tag =
          blake2b512 (encMacKey passphrase numCPU salt)
            (encCT passphrase p numCPU salt supply) := rfl
      rw [htag]
      exact blake2b512_ne_of_data_ne _ _ _ hb2 hctbytes hne
    rw [if_neg hcondne]
  constructor
  · intro i v hi hv hvne
    apply hbad
    · intro b hb
      rcases mem_set_or _ i v b hb with rfl | hb2
      · exact hv
      · exact hctbytes b hb2
    · intro heq2
      apply hvne
      have hgd : ((encCT passphrase p numCPU salt supply).set i v).getD i 0 =
          (encCT passphrase p numCPU salt supply).getD i 0 := by
        rw [heq2]
      rw [getD_set_self _ i v hi] at hgd
      exact hgd
  · intro m hm
    apply hbad
    · intro b hb
      exact hctbytes b (List.mem_of_mem_take hb)
    · intro heq2
      have hlen2 := congrArg List.length heq2
      rw [List.length_take] at hlen2
      omega

/-- Witness for C2 at a concrete instance: a one-byte plaintext, mutating
ciphertext byte 0 and truncating to the empty region. -/
theorem c2_authentication_witness :
    ([5] ≠ ([] : List Nat)) ∧ (∀ x ∈ [5], x < 256) ∧
    (List.replicate 32 0 : List Nat).length = 32 ∧
    (pChunks [5]).length ≤ [List.replicate 24 3].length ∧
    (∀ x ∈ [List.replicate 24 3].take (pChunks [5]).length, ∀ b ∈ x, b < 256) ∧
    decryptFileModel [7]
      (headerBytes (encHeader [7] [5] 1 (List.replicate 32 0) [List.replicate 24 3]) ++
        (encCT [7] [5] 1 (List.replicate 32 0) [List.replicate 24 3]).set 0 0) =
      .error .badMAC ∧
    decryptFileModel [7]
      (headerBytes (encHeader [7] [5] 1 (List.replicate 32 0) [List.replicate 24 3]) ++
        (encCT [7] [5] 1 (List.replicate 32 0) [List.replicate 24 3]).take 0) =
      .error .badMAC :=
  ⟨by decide, by decide, by decide, by decide, by decide,
   (c2_authentication [7] [5] 1 (List.replicate 32 0) [List.replicate 24 3]
     (by decide) (by decide) (by decide) (by decide) (by decide)).1 0 0
     (by decide) (by decide) (by decide),
   (c2_authentication [7] [5] 1 (List.replicate 32 0) [List.replicate 24 3]
     (by decide) (by decide) (by decide) (by decide) (by decide)).2 0
     (by decide)⟩

/-- C3 counterexample: the serialized header of a representative
`fileHeader` is 105 bytes (32 + 4 + 4 + 1 + 64; `encoding/binary` inserts no
padding), not 141 bytes as the claim states. -/
theorem c3_header_length_not_141 :
    (headerBytes ⟨List.replicate 32 0, 4, 4000000, 2, List.replicate 64 0⟩).length = 105 ∧
    (headerBytes ⟨List.replicate 32 0, 4, 4000000, 2, List.replicate 64 0⟩).length ≠ 141 := by
  decide

/-- C3 amended: the serialized file header is the fixed layout salt (32 B),
argon_time (u32 LE), argon_memory (u32 LE), argon_lanes (u8), tag (64 B), in
that order with no padding, totalling exactly 105 bytes, and the ciphertext
region begins immediately after it at offset 105. -/
theorem c3_header_layout (salt : List Nat) (time mem lanes : Nat) (tag : List Nat)
    (hsalt : salt.length = 32) (htag : tag.length = 64) :
    headerBytes ⟨salt, time, mem, lanes, tag⟩ =
      salt ++ u32le time ++ u32le mem ++ [lanes % 256] ++ tag ∧
    (headerBytes ⟨salt, time, mem, lanes, tag⟩).length = 105 ∧
    (headerBytes ⟨salt, time, mem, lanes, tag⟩).take 32 = salt ∧
    ((headerBytes ⟨salt, time, mem, lanes, tag⟩).drop 32).take 4 = u32le time ∧
    ((headerBytes ⟨salt, time, mem, lanes, tag⟩).drop 36).take 4 = u32le mem ∧
    ((headerBytes ⟨salt, time, mem, lanes, tag⟩).drop 40).take 1 = [lanes % 256] ∧
    (headerBytes ⟨salt, time, mem, lanes, tag⟩).drop 41 = tag ∧
    ∀ rest : List Nat,
      (headerBytes ⟨salt, time, mem, lanes, tag⟩ ++ rest).drop 105 = rest := by
  have hfile : headerBytes ⟨salt, time, mem, lanes, tag⟩ =
      salt ++ (u32le time ++ (u32le mem ++ ([lanes % 256] ++ tag))) := by
    simp [headerBytes, List.append_assoc]
  have d32 : (headerBytes ⟨salt, time, mem, lanes, tag⟩).drop 32 =
      u32le time ++ (u32le mem ++ ([lanes % 256] ++ tag)) := by
    rw [hfile]
    exact List.drop_left' hsalt
  have d36 : (headerBytes ⟨salt, time, mem, lanes, tag⟩).drop 36 =
      u32le mem ++ ([lanes % 256] ++ tag) := by
    rw [show (36 : Nat) = 32 + 4 from rfl, ← List.drop_drop, d32]
    exact List.drop_left' (u32le_length _)
  have d40 : (headerBytes ⟨salt, time, mem, lanes, tag⟩).drop 40 =
      [lanes % 256] ++ tag := by
    rw [show (40 : Nat) = 36 + 4 from rfl, ← List.drop_drop, d36]
    exact List.drop_left' (u32le_length _)
  have d41 : (headerBytes ⟨salt, time, mem, lanes, tag⟩).drop 41 = tag := by
    rw [show (41 : Nat) = 40 + 1 from rfl, ← List.drop_drop, d40]
    rfl
  refine ⟨by simp [headerBytes], headerBytes_length _ hsalt htag, ?_, ?_, ?_, ?_, d41, ?_⟩
  · rw [hfile]
    exact List.take_left' hsalt
  · rw [d32]
    exact List.take_left' (u32le_length _)
  · rw [d36]
    exact List.take_left' (u32le_length _)
  · rw [d40]
    rfl
  · intro rest
    exact List.drop_left' (headerBytes_length _ hsalt htag)

/-- Witness for C3 amended at a concrete header. -/
theorem c3_header_layout_witness :
    (List.replicate 32 0 : List Nat).length = 32 ∧
    (List.replicate 64 1 : List Nat).length = 64 ∧
    (headerBytes ⟨List.replicate 32 0, 4, 4000000, 2, List.replicate 64 1⟩).length = 105 ∧
    (headerBytes ⟨List.replicate 32 0, 4, 4000000, 2, List.replicate 64 1⟩ ++ [9]).drop
      105 = [9] :=
  ⟨by decide, by decide,
   (c3_header_layout _ 4 4000000 2 _ (by decide) (by decide)).2.1,
   (c3_header_layout _ 4 4000000 2 _ (by decide) (by decide)).2.2.2.2.2.2.2 [9]⟩

/-- C4: a freshly drawn nonce that is already in the per-instance used-nonce
set makes `writeChunk` abort (the nonce-reuse panic) instead of emitting a
chunk, and the ciphertext region of any successfully encrypted file is a
frame sequence whose nonces are pairwise distinct. -/
theorem c4_nonce_uniqueness :
    (∀ (w : EncWriter) (nonce : List Nat) (rest : List (List Nat)),
      nonce ∈ w.usedNonces → w.writeChunk (nonce :: rest) = .error .nonceReuse) ∧
    (∀ (passphrase p : List Nat) (numCPU : Nat) (salt : List Nat)
      (supply : List (List Nat)) (file : List Nat),
      salt.length = 32 →
      encryptFileModel passphrase p numCPU salt supply = .ok file →
      ∃ nonces : List (List Nat), nonces.Nodup ∧
        nonces.length = (pChunks p).length ∧
        file.drop 105 = framesOf (encSK passphrase numCPU salt) nonces (pChunks p)) := by
  constructor
  · intro w nonce rest hmem
    simp [EncWriter.writeChunk, hmem]
  · intro passphrase p numCPU salt supply file hsalt h
    rw [encryptFileModel] at h
    cases hcw : copyToWriterF (p.length + 1)
        (mkWriter ((generateKey passphrase numCPU salt).1.take 32)) p supply with
    | error e =>
      rw [hcw] at h
      exact absurd h (by simp)
    | ok pair =>
      obtain ⟨w2, s2⟩ := pair
      rw [hcw] at h
      replace h : Except.ok (headerBytes { (generateKey passphrase numCPU salt).2 with
          tag := blake2b512 (((generateKey passphrase numCPU salt).1.drop 32).take 32)
            w2.out } ++ w2.out) = Except.ok file := h
      simp only [Except.ok.injEq] at h
      obtain ⟨nonces, -, hlen, hnodup, -, hw2⟩ :=
        copyToWriter_ok_inv (p.length + 1) p _ supply w2 s2 rfl hcw
      refine ⟨nonces, hnodup, hlen, ?_⟩
      rw [← h]
      have h105 : (headerBytes { (generateKey passphrase numCPU salt).2 with
          tag := blake2b512 (((generateKey passphrase numCPU salt).1.drop 32).take 32)
            w2.out }).length = 105 := by
        apply headerBytes_length
        · show ((generateKey passphrase numCPU salt).2.salt).length = 32
          simp [generateKey, generateKeyHeader, hsalt]
        · exact blake2b512_length _ _
      rw [List.drop_left' h105, hw2]
      simp [mkWriter, encSK]

/-- Witness for C4: a collision aborts at a concrete writer state, and a
concrete successful encryption has distinct frame nonces. -/
theorem c4_nonce_uniqueness_witness :
    EncWriter.writeChunk
      (EncWriter.mk [] [List.replicate 24 3] [] (List.replicate 32 0))
      [List.replicate 24 3] = .error .nonceReuse ∧
    ((List.replicate 32 0 : List Nat).length = 32 ∧
     ∃ nonces : List (List Nat), nonces.Nodup ∧
       nonces.length = (pChunks [1, 2]).length ∧
       (headerBytes (encHeader [7] [1, 2] 1 (List.replicate 32 0) [List.replicate 24 3]) ++
         encCT [7] [1, 2] 1 (List.replicate 32 0) [List.replicate 24 3]).drop 105 =
         framesOf (encSK [7] 1 (List.replicate 32 0)) nonces (pChunks [1, 2])) :=
  ⟨c4_nonce_uniqueness.1 (EncWriter.mk [] [List.replicate 24 3] [] (List.replicate 32 0))
     (List.replicate 24 3) [] (by decide),
   ⟨by decide,
    c4_nonce_uniqueness.2 [7] [1, 2] 1 (List.replicate 32 0) [List.replicate 24 3]
      (headerBytes (encHeader [7] [1, 2] 1 (List.replicate 32 0) [List.replicate 24 3]) ++
        encCT [7] [1, 2] 1 (List.replicate 32 0) [List.replicate 24 3])
      (by decide)
      (encryptFileModel_eq [7] [1, 2] 1 (List.replicate 32 0) [List.replicate 24 3]
        (by decide) (by decide))⟩⟩

/-- C5: every chunk a successful `Write` call emits carries at most 16384
plaintext bytes, the chunks concatenate back to the submitted plaintext in
submission order, and a 16385-byte input is split into exactly two chunks:
first 16384 bytes, then 1 byte. -/
theorem c5_chunking (sk p : List Nat) (supply : List (List Nat)) (w2 : EncWriter)
    (s2 : List (List Nat))
    (hw : EncWriter.write (mkWriter sk) p supply = .ok (w2, s2)) :
    (∃ nonces : List (List Nat), nonces.length = (chunksOf p).length ∧
      w2.out = framesOf sk nonces (chunksOf p)) ∧
    (∀ c ∈ chunksOf p, c.length ≤ maxChunkSize) ∧
    (chunksOf p).flatten = p ∧
    (p.length = 16385 →
      chunksOf p = [p.take 16384, p.drop 16384] ∧
      (p.take 16384).length = 16384 ∧ (p.drop 16384).length = 1) := by
  obtain ⟨nonces, -, hlen, -, -, hw2⟩ :=
    EncWriter.write_ok_inv p.length p (mkWriter sk) supply w2 s2 le_rfl rfl hw
  refine ⟨⟨nonces, hlen, ?_⟩, chunksOf_chunk_le p.length p le_rfl,
    chunksOf_flatten p.length p le_rfl, ?_⟩
  · rw [hw2]
    simp [mkWriter]
  · intro h16385
    have hmax : maxChunkSize = 16384 := rfl
    have hlarge : maxChunkSize < p.length := by omega
    have hsplit := chunksOf_large p hlarge
    rw [chunksOf_small (p.drop maxChunkSize) (by rw [List.length_drop]; omega)] at hsplit
    rw [hmax] at hsplit
    refine ⟨hsplit, ?_, ?_⟩
    · rw [List.length_take]
      omega
    · rw [List.length_drop]
      omega

/-- Witness for C5 at a concrete two-byte write. -/
theorem c5_chunking_witness :
    EncWriter.write (mkWriter (List.replicate 32 0)) [1, 2] [List.replicate 24 3] =
      .ok (EncWriter.mk [] [List.replicate 24 3]
        (frame (List.replicate 32 0) (List.replicate 24 3) [1, 2]) (List.replicate 32 0),
        []) ∧
    (chunksOf [1, 2]).flatten = [1, 2] := by
  constructor
  · rfl
  · exact (c5_chunking (List.replicate 32 0) [1, 2] [List.replicate 24 3]
      (EncWriter.mk [] [List.replicate 24 3]
        (frame (List.replicate 32 0) (List.replicate 24 3) [1, 2]) (List.replicate 32 0))
      [] (by rfl)).2.2.1

/-- C6 counterexample: encrypting the empty input succeeds and yields a
105-byte file whose ciphertext region is empty — it contains no chunk frame
at all, hence no zero-byte chunk is flushed and no nonce is recorded. -/
theorem c6_empty_input_no_frame :
    (encryptFileModel [7] [] 1 (List.replicate 32 0) [List.replicate 24 3]).toOption.map
      (fun f => (f.length, f.drop 105)) = some (105, []) := by
  decide

/-- C6 amended: the encrypt pipeline produces an empty ciphertext region
(zero chunk frames) for an empty input, because `io.Copy` never invokes
`Write` when the source is empty; only a direct `Write` call flushes a
chunk, and a direct `Write` of an empty slice does emit exactly one frame
holding a zero-byte plaintext chunk under a fresh nonce. -/
theorem c6_empty_input (passphrase : List Nat) (numCPU : Nat) (salt : List Nat)
    (supply : List (List Nat)) (sk nonce : List Nat) (rest : List (List Nat)) :
    encryptFileModel passphrase [] numCPU salt supply =
      .ok (headerBytes (encHeader passphrase [] numCPU salt supply)) ∧
    encCT passphrase [] numCPU salt supply = [] ∧
    EncWriter.write (mkWriter sk) [] (nonce :: rest) =
      .ok (EncWriter.mk [] [nonce] (frame sk nonce []) sk, rest) := by
  have hct : encCT passphrase [] numCPU salt supply = [] := by
    simp [encCT, pChunks, framesOf]
  refine ⟨?_, hct, ?_⟩
  · have h1 := encryptFileModel_eq passphrase [] numCPU salt supply
      (by simp [pChunks]) (by simp [pChunks])
    rwa [hct, List.append_nil] at h1
  · rw [EncWriter.write_small [] (mkWriter sk) nonce rest (by simp [maxChunkSize]) rfl
      (by simp [mkWriter])]
    simp [mkWriter]

/-- C7 counterexample: a `DecReader` that reports an oversize chunk length
is not left unusable — the very next `Read` on the returned state decrypts
the following well-formed frame and serves its plaintext with no error. -/
theorem c7_retry_succeeds :
    (DecReader.read (mkReader (List.replicate 32 0)
        (List.replicate 24 5 ++ u64le 16401 ++
          frame (List.replicate 32 0) (List.replicate 24 9) [7])) 1).2.2 =
      some Err.chunkTooLarge ∧
    (DecReader.read
        (DecReader.read (mkReader (List.replicate 32 0)
          (List.replicate 24 5 ++ u64le 16401 ++
            frame (List.replicate 32 0) (List.replicate 24 9) [7])) 1).1 1).2 =
      ([7], none) := by
  decide

/-- C7 amended: an oversize chunk length is reported as a read error, but
the reader keeps no sticky error state — the 24-byte nonce and 8-byte
length prefix of the bad frame have been consumed, and a subsequent `Read`
on the same reader proceeds from the following input byte, so a retry
succeeds whenever the remaining input is a well-formed frame. -/
theorem c7_no_sticky_error (sk junk nonce : List Nat) (b0 : Nat) (bs : List Nat) (L : Nat)
    (hj : junk.length = 24) (hn : nonce.length = 24)
    (hL : maxChunkSize + 16 < L) (hL64 : L < 2 ^ 64)
    (hb0 : b0 < 256) (hbs : ∀ x ∈ bs, x < 256) (hlen : bs.length + 1 ≤ maxChunkSize) :
    DecReader.read (mkReader sk (junk ++ u64le L ++ frame sk nonce (b0 :: bs))) 1 =
      (mkReader sk (frame sk nonce (b0 :: bs)), [], some Err.chunkTooLarge) ∧
    (DecReader.read (mkReader sk (frame sk nonce (b0 :: bs))) 1).2 = ([b0], none) := by
  constructor
  · have hnc := DecReader.nextChunk_oversize sk junk (frame sk nonce (b0 :: bs)) L
      (mkReader sk (junk ++ u64le L ++ frame sk nonce (b0 :: bs))) rfl hj hL hL64
    exact DecReader.read_fetch_err _ _ _ 0 rfl hnc
  · have hin : (mkReader sk (frame sk nonce (b0 :: bs))).input =
        frame sk nonce (b0 :: bs) ++ framesOf sk [] [] := by
      show frame sk nonce (b0 :: bs) = _
      rw [framesOf_nil, List.append_nil]
    have hnc2 := DecReader.nextChunk_frame sk nonce (b0 :: bs) [] []
      (mkReader sk (frame sk nonce (b0 :: bs))) rfl hin hn (by simpa using hlen)
      (by
        intro x hx
        cases hx with
        | head => exact hb0
        | tail _ h => exact hbs x h)
    have hserve := DecReader.read_serve (mkReader sk (frame sk nonce (b0 :: bs))) _ _ _ _ 0
      hnc2 (by show 0 < (b0 :: bs).length; simp) rfl
    exact (congrArg (fun r => r.2) hserve).trans rfl

/-- Witness for C7 amended at a concrete oversize-then-valid stream. -/
theorem c7_no_sticky_error_witness :
    (List.replicate 24 5 : List Nat).length = 24 ∧
    maxChunkSize + 16 < 16401 ∧
    (DecReader.read (mkReader (List.replicate 32 0) (List.replicate 24 5 ++ u64le 16401 ++
        frame (List.replicate 32 0) (List.replicate 24 9) [7])) 1 =
      (mkReader (List.replicate 32 0) (frame (List.replicate 32 0) (List.replicate 24 9) [7]),
        [], some Err.chunkTooLarge) ∧
     (DecReader.read (mkReader (List.replicate 32 0)
        (frame (List.replicate 32 0) (List.replicate 24 9) [7])) 1).2 = ([7], none)) :=
  ⟨by decide, by decide,
   c7_no_sticky_error (List.replicate 32 0) (List.replicate 24 5) (List.replicate 24 9)
     7 [] 16401 (by decide) (by decide) (by decide) (by decide) (by decide)
     (by decide) (by decide)⟩

/-- C8 counterexample: at 128 logical CPUs the lanes byte stored in the
header is uint8(128 × 2) = 0 — the uint8 conversion truncates modulo 256
and nothing clamps the result away from 0. -/
theorem c8_lanes_zero_at_128 :
    (generateKeyHeader 128 (List.replicate 32 0)).argonLanes = 0 := by
  decide

/-- C8 amended: the default lanes value stored in the header is
uint8(2 × logical_cpus), i.e. 2 × numCPU reduced modulo 256 with no
clamping; it is 0 whenever numCPU is a multiple of 128, and equals the
intended 2 × numCPU (nonzero) only for 1 ≤ numCPU ≤ 127. -/
theorem c8_lanes_truncated (numCPU : Nat) (salt : List Nat) :
    (generateKeyHeader numCPU salt).argonLanes = numCPU * 2 % 256 ∧
    (numCPU % 128 = 0 → (generateKeyHeader numCPU salt).argonLanes = 0) ∧
    (1 ≤ numCPU → numCPU ≤ 127 →
      (generateKeyHeader numCPU salt).argonLanes = 2 * numCPU ∧
      (generateKeyHeader numCPU salt).argonLanes ≠ 0) := by
  refine ⟨rfl, ?_, ?_⟩
  · intro h
    show numCPU * 2 % 256 = 0
    omega
  · intro h1 h2
    constructor
    · show numCPU * 2 % 256 = 2 * numCPU
      omega
    · show numCPU * 2 % 256 ≠ 0
      omega

/-- Witness for C8 amended at 4 CPUs (in range) and 128 CPUs (truncated). -/
theorem c8_lanes_truncated_witness :
    (generateKeyHeader 4 (List.replicate 32 0)).argonLanes = 2 * 4 ∧
    (generateKeyHeader 4 (List.replicate 32 0)).argonLanes ≠ 0 ∧
    (128 % 128 = 0 ∧ (generateKeyHeader 128 []).argonLanes = 0) :=
  ⟨((c8_lanes_truncated 4 (List.replicate 32 0)).2.2 (by decide) (by decide)).1,
   ((c8_lanes_truncated 4 (List.replicate 32 0)).2.2 (by decide) (by decide)).2,
   by decide,
   (c8_lanes_truncated 128 []).2.1 (by decide)⟩

theorem writeLoop_buf_bound : ∀ (p : List Nat) (w : EncWriter) (s : List (List Nat))
    (w1 : EncWriter) (s1 : List (List Nat)),
    w.buf.length ≤ maxChunkSize → EncWriter.writeLoop w p s = .ok (w1, s1) →
    w1.buf.length ≤ maxChunkSize := by
  intro p
  induction p with
  | nil =>
    intro w s w1 s1 hb h
    rw [EncWriter.writeLoop_nil] at h
    simp only [Except.ok.injEq, Prod.mk.injEq] at h
    rw [← h.1]
    exact hb
  | cons b rest ih =>
    intro w s w1 s1 hb h
    rw [EncWriter.writeLoop_cons] at h
    by_cases hfull : w.buf.length = maxChunkSize
    · rw [if_pos hfull] at h
      cases hwc : w.writeChunk s with
      | error e =>
        rw [hwc] at h
        exact absurd h (by simp)
      | ok pair =>
        obtain ⟨wc, sc⟩ := pair
        rw [hwc] at h
        obtain ⟨nonce, -, -, hwc2⟩ := EncWriter.writeChunk_ok_inv hwc
        refine ih { wc with buf := wc.buf ++ [b] } sc w1 s1 ?_ h
        rw [hwc2]
        show ([] ++ [b] : List Nat).length ≤ maxChunkSize
        simp [maxChunkSize]
    · rw [if_neg hfull] at h
      refine ih { w with buf := w.buf ++ [b] } s w1 s1 ?_ h
      show (w.buf ++ [b]).length ≤ maxChunkSize
      rw [List.length_append]
      simp only [List.length_cons, List.length_nil]
      omega

/-- C9: buffer-size invariants: across the write loop the encryptor's
plaintext buffer stays at or below one maxChunkSize (hence below
3 × maxChunkSize), a completed Write leaves it empty, a freshly fetched
decrypted chunk buffer is at most 3 × maxChunkSize, and the decryptor's
3 × maxChunkSize buffer bound is preserved by a Read of any request size. -/
theorem c9_memory_bound :
    (∀ (p : List Nat) (w : EncWriter) (s : List (List Nat)) (w1 : EncWriter)
        (s1 : List (List Nat)),
      w.buf.length ≤ maxChunkSize → EncWriter.writeLoop w p s = .ok (w1, s1) →
      w1.buf.length ≤ maxChunkSize ∧ w1.buf.length ≤ 3 * maxChunkSize) ∧
    (∀ (sk p : List Nat) (supply : List (List Nat)) (w2 : EncWriter) (s2 : List (List Nat)),
      EncWriter.write (mkWriter sk) p supply = .ok (w2, s2) → w2.buf = []) ∧
    (∀ b b2 : DecReader, b.nextChunk = (b2, none) → b2.buf.length ≤ 3 * maxChunkSize) ∧
    (∀ (n : Nat) (b : DecReader), b.buf.length ≤ 3 * maxChunkSize →
      ((DecReader.read b n).1).buf.length ≤ 3 * maxChunkSize) := by
  refine ⟨?_, ?_, ?_, read_buf_bound⟩
  · intro p w s w1 s1 hb h
    have h1 := writeLoop_buf_bound p w s w1 s1 hb h
    exact ⟨h1, by omega⟩
  · intro sk p supply w2 s2 h
    obtain ⟨nonces, -, -, -, -, hw2⟩ :=
      EncWriter.write_ok_inv p.length p (mkWriter sk) supply w2 s2 le_rfl rfl h
    rw [hw2]
  · intro b b2 h
    have h1 := (DecReader.nextChunk_ok_inv h).1
    omega

/-- Witness for C9 at a concrete two-byte write loop and a concrete read. -/
theorem c9_memory_bound_witness :
    ((mkWriter (List.replicate 32 0)).buf.length ≤ maxChunkSize ∧
     EncWriter.writeLoop (mkWriter (List.replicate 32 0)) [1, 2] [] =
       .ok (EncWriter.mk [1, 2] [] [] (List.replicate 32 0), []) ∧
     (EncWriter.mk [1, 2] [] [] (List.replicate 32 0) : EncWriter).buf.length ≤
       3 * maxChunkSize) ∧
    ((mkReader (List.replicate 32 0) []).buf.length ≤ 3 * maxChunkSize ∧
     ((DecReader.read (mkReader (List.replicate 32 0) []) 5).1).buf.length ≤
       3 * maxChunkSize) :=
  ⟨⟨by decide, by rfl,
    (c9_memory_bound.1 [1, 2] (mkWriter (List.replicate 32 0)) []
      (EncWriter.mk [1, 2] [] [] (List.replicate 32 0)) [] (by decide) (by rfl)).2⟩,
   ⟨by decide,
    c9_memory_bound.2.2.2 5 (mkReader (List.replicate 32 0) []) (by decide)⟩⟩

/-- C10 code bug: a direct `Write` of an empty slice emits a valid
zero-plaintext chunk frame, yet `Read` on that very frame performs the
out-of-bounds access `b.buf[b.index]` on the empty decrypted buffer — the
model returns the index-out-of-range panic marker, refuting the claim that
`Read` is total on every stream. -/
theorem c10_zero_chunk_oob :
    EncWriter.write (mkWriter (List.replicate 32 0)) [] [List.replicate 24 3] =
      .ok (EncWriter.mk [] [List.replicate 24 3]
        (frame (List.replicate 32 0) (List.replicate 24 3) []) (List.replicate 32 0), []) ∧
    DecReader.read (mkReader (List.replicate 32 0)
        (frame (List.replicate 32 0) (List.replicate 24 3) [])) 1 =
      (DecReader.mk [] [] 0 (List.replicate 32 0), [], some Err.indexOutOfRange) := by
  constructor
  · rfl
  · rfl

end Enc
